import Mathlib

/-!
# Verification of the eatmud transaction/ledger core

A shallow embedding, in Lean 4, of the Rust sources of the `eatmud`
repository (files `utility.rs`, `record.rs`, `transaction.rs`), together
with theorems settling the specification claims about them.

Modelling conventions:
* Rust `f64` values are modelled as `ℚ`.  Every claim below only involves
  arithmetic (`+`, `-`, `*`, `/`) on values where the Rust program performs
  the identical sequence of operations, so exact equalities proved over `ℚ`
  correspond to bit-identical `f64` results.
* The transcendental float intrinsics `f64::exp` and `f64::ln` (used only
  inside `irr`) are modelled as explicit function parameters `expF`/`lnF`;
  all theorems about `irr` hold for *every* choice of these parameters.
* `chrono::NaiveDate` is modelled as `ℤ` (a day number); `weekday` is the
  residue mod 7, which is faithful to the real calendar up to a fixed
  rotation of the labels.
* A Rust `panic!` / `.expect` / out-of-bounds abort is modelled as the
  `.error` branch of an `Except String` result; a recoverable
  `Result::Err(TransactionError)` keeps its own explicit error type.
-/

namespace Eatmud

/-! ## utility.rs -/

/-- `pub const DAYS_PER_YEAR: f64 = 360.;` -/
def DAYS_PER_YEAR : ℚ := 360

/-- `pub enum SIDE { LEFT, RIGHT }` -/
inductive SIDE where
  | LEFT : SIDE
  | RIGHT : SIDE
deriving DecidableEq, Repr

/-- The binary-search loop of `search_sorted` (`while lo + 1 < hi { ... }`),
operating on the key projection `kAt` of the slice.  `kAt i` is
`key(&a[i])`; all calls keep `lo` and `hi` inside the slice. -/
def ssLoop {U : Type} [LinearOrder U] (kAt : ℕ → U) (v : U) (side : SIDE)
    (lo hi : ℕ) : ℕ × ℕ :=
  if h : lo + 1 < hi then
    let mid := (lo + hi) / 2
    if kAt mid < v then ssLoop kAt v side mid hi
    else if v < kAt mid then ssLoop kAt v side lo mid
    else
      match side with
      | SIDE.LEFT => ssLoop kAt v side lo mid
      | SIDE.RIGHT => ssLoop kAt v side mid hi
  else (lo, hi)
termination_by hi - lo
decreasing_by all_goals omega

/-- `search_sorted(a, v, key, side)` from `utility.rs`.  Indexing `a[i]`
is modelled by `(a.map key).getD i default`; the loop keeps all indices
in bounds so the default is never consulted. -/
def search_sorted {T U : Type} [LinearOrder U] [Inhabited U]
    (a : List T) (v : U) (key : T → U) (side : Option SIDE) : ℕ :=
  if a.isEmpty then 0
  else
    let side := side.getD SIDE.LEFT
    let kAt : ℕ → U := fun i => (a.map key).getD i default
    let p := ssLoop kAt v side 0 (a.length - 1)
    let lo := p.1
    let hi := p.2
    let lv := kAt lo
    let rv := kAt hi
    if v = lv ∨ v = rv then
      match side with
      | SIDE.LEFT => if v = lv then lo else hi
      | SIDE.RIGHT => if v = rv then lo else hi
    else if v < lv then lo
    else if v > rv then hi + 1
    else hi

/-- The loop body of `newton1d` (`for _ in 0..maxiter`), by recursion on
the remaining iteration budget. -/
def newton1dLoop (f d : ℚ → ℚ) (tol : ℚ) : ℕ → ℚ → Option ℚ
  | 0, _ => none
  | m + 1, x =>
    let new_x := x - f x / d x
    if |new_x - x| < tol then some new_x else newton1dLoop f d tol m new_x

/-- `newton1d(f, d, x0, tol, maxiter)` from `utility.rs`: Newton iteration
returning `Some root` on convergence and `None` when the budget is
exhausted. -/
def newton1d (f d : ℚ → ℚ) (x0 tol : ℚ) (maxiter : ℕ) : Option ℚ :=
  newton1dLoop f d tol maxiter x0

/-- `irr(days_array, investment_array, end_value, x0)` from `utility.rs`.
`expF` and `lnF` stand for the float intrinsics `f64::exp` and `f64::ln`;
the claims proved below hold for every choice of them. -/
def irr (expF lnF : ℚ → ℚ) (days_array investment_array : List ℚ)
    (end_value x0 : ℚ) : Option ℚ :=
  if investment_array.all (fun i => i == 0) then none
  else
    let t_list := days_array.map (fun x => x / DAYS_PER_YEAR)
    let f := fun p =>
      end_value - ((t_list.zip investment_array).map
        (fun tx => tx.2 * expF (p * tx.1))).sum
    let g := fun p =>
      ((t_list.zip investment_array).map
        (fun tx => -tx.2 * tx.1 * expF (p * tx.1))).sum
    let p0 := lnF (x0 + 1)
    match newton1d f g p0 (1 / 1000000) 1000 with
    | none => none
    | some p => some (expF p - 1)

/-! ## record.rs -/

/-- `struct ConciseRecordSlice` from `record.rs`. -/
structure ConciseRecordSlice where
  date : ℤ
  investment : ℚ
  present_value : ℚ
  comment : String
  total_investment : ℚ
  profit : ℚ
deriving DecidableEq, Repr

/-- `struct DetailedRecordSlice` from `record.rs`. -/
structure DetailedRecordSlice where
  date : ℤ
  investment : ℚ
  nav : ℚ
  share : ℚ
  comment : String
  fee : ℚ
  total_investment : ℚ
  total_share : ℚ
  present_value : ℚ
  profit : ℚ
deriving DecidableEq, Repr

/-- `struct Record<Rs>` at `Rs = ConciseRecordSlice`
(`type ConciseRecord = Record<ConciseRecordSlice>`). -/
structure ConciseRecord where
  name : String
  code : String
  comment : String
  records : List ConciseRecordSlice
deriving DecidableEq, Repr

/-- `struct Record<Rs>` at `Rs = DetailedRecordSlice`
(`type DetailedRecord = Record<DetailedRecordSlice>`). -/
structure DetailedRecord where
  name : String
  code : String
  comment : String
  records : List DetailedRecordSlice
deriving DecidableEq, Repr

/-- `Record::new(name, code)` for concise records. -/
def ConciseRecord.new (name code : String) : ConciseRecord :=
  ⟨name, code, "", []⟩

/-- `Record::new(name, code)` for detailed records. -/
def DetailedRecord.new (name code : String) : DetailedRecord :=
  ⟨name, code, "", []⟩

/-- `Record::<ConciseRecordSlice>::append`.  The `panic!("date must be
ordered")` guard is the `.error` branch. -/
def ConciseRecord.append (r : ConciseRecord) (date : ℤ)
    (investment present_value : ℚ) (comment : String) :
    Except String ConciseRecord :=
  if r.records ≠ [] ∧
      date < ((r.records.getLast?).map ConciseRecordSlice.date).getD 0 then
    Except.error "date must be ordered"
  else
    let total_investment := investment +
      (if r.records ≠ [] then
        ((r.records.getLast?).map ConciseRecordSlice.total_investment).getD 0
       else 0)
    Except.ok { r with records := r.records ++
      [{ date := date, investment := investment,
         present_value := present_value, comment := comment,
         total_investment := total_investment,
         profit := present_value - total_investment }] }

/-- `Record::<DetailedRecordSlice>::append`. -/
def DetailedRecord.append (r : DetailedRecord) (date : ℤ)
    (investment nav share : ℚ) (comment : String) :
    Except String DetailedRecord :=
  if r.records ≠ [] ∧
      date < ((r.records.getLast?).map DetailedRecordSlice.date).getD 0 then
    Except.error "date must be ordered"
  else
    let total_investment := investment +
      (if r.records ≠ [] then
        ((r.records.getLast?).map DetailedRecordSlice.total_investment).getD 0
       else 0)
    let total_share := share +
      (if r.records ≠ [] then
        ((r.records.getLast?).map DetailedRecordSlice.total_share).getD 0
       else 0)
    let present_value := nav * total_share
    Except.ok { r with records := r.records ++
      [{ date := date, investment := investment, nav := nav, share := share,
         comment := comment, fee := investment - nav * share,
         total_investment := total_investment, total_share := total_share,
         present_value := present_value,
         profit := present_value - total_investment }] }

/-- `Record::irr_direct` (for concise records).  The
`.expect("fail to solve irr")` on a failed solve is the `.error` branch;
the slice `self.records[start_idx..end_idx]` panics when the range is
invalid, which is the first guard. -/
def ConciseRecord.irr_direct (expF lnF : ℚ → ℚ) (r : ConciseRecord)
    (start_date end_date : ℤ) (start_value end_value : ℚ)
    (start_idx end_idx : ℕ) (x0 : ℚ) : Except String ℚ :=
  if ¬(start_idx ≤ end_idx ∧ end_idx ≤ r.records.length) then
    Except.error "slice index out of range"
  else
    let part := (r.records.drop start_idx).take (end_idx - start_idx)
    let t : List ℤ := start_date :: part.map ConciseRecordSlice.date
    let t : List ℚ := t.map (fun ti => ((end_date - ti : ℤ) : ℚ))
    let x : List ℚ := start_value :: part.map ConciseRecordSlice.investment
    match irr expF lnF t x end_value x0 with
    | none => Except.error "fail to solve irr"
    | some v => Except.ok v

/-- `Record::irr` (for concise records): the convenience wrapper that
defaults the boundary dates from `self.records[0]` /
`self.records[self.len() - 1]` and imputes the boundary values by
nearest-date lookup.  Out-of-bounds record indexing is the `.error`
branch (a Rust panic). -/
def ConciseRecord.irr (expF lnF : ℚ → ℚ) (r : ConciseRecord)
    (start_date? end_date? : Option ℤ) (start_value? end_value? : Option ℚ)
    (x0? : Option ℚ) : Except String ℚ := do
  let start_date ← match start_date? with
    | some d => Except.ok d
    | none => match r.records.get? 0 with
      | some s => Except.ok s.date
      | none => Except.error "index out of bounds"
  let end_date ← match end_date? with
    | some d => Except.ok d
    | none => match r.records.get? (r.records.length - 1) with
      | some s => Except.ok s.date
      | none => Except.error "index out of bounds"
  let start_idx := search_sorted r.records start_date
    ConciseRecordSlice.date none
  let end_idx := search_sorted r.records end_date
    ConciseRecordSlice.date none
  let start_value ← match start_value? with
    | some v => Except.ok v
    | none =>
      if start_idx = 0 then Except.ok 0
      else match r.records.get? (start_idx - 1), r.records.get? start_idx with
        | some sPrev, some sNext =>
          if start_date - sPrev.date < sNext.date - start_date then
            Except.ok sPrev.present_value
          else Except.ok (sNext.present_value - sNext.investment)
        | _, _ => Except.error "index out of bounds"
  let end_value ← match end_value? with
    | some v => Except.ok v
    | none =>
      if end_idx = r.records.length then
        match r.records.get? (r.records.length - 1) with
        | some s => Except.ok s.present_value
        | none => Except.error "index out of bounds"
      else if end_idx = 0 then Except.error "index out of bounds"
      else match r.records.get? (end_idx - 1), r.records.get? end_idx with
        | some sPrev, some sNext =>
          if end_date - sPrev.date < sNext.date - end_date then
            Except.ok sPrev.present_value
          else Except.ok (sNext.present_value - sNext.investment)
        | _, _ => Except.error "index out of bounds"
  r.irr_direct expF lnF start_date end_date start_value end_value
    start_idx end_idx (x0?.getD 0)

/-! ### `merge_records!` (the two-argument arm of the macro)

The inner `while let Some(s) = rs { if s.date() != present_date { break; }
... }` loops consume the maximal leading run of slices dated
`present_date`; their effects are expressed with `takeWhile`/`dropWhile`
below. -/

/-- The leading run of slices dated `d` consumed by one inner `while`
loop of `merge_records!`. -/
def runSlices (d : ℤ) (l : List ConciseRecordSlice) :
    List ConciseRecordSlice :=
  l.takeWhile (fun s => s.date == d)

/-- What is left of a source ledger after one inner `while` loop of
`merge_records!`. -/
def restSlices (d : ℤ) (l : List ConciseRecordSlice) :
    List ConciseRecordSlice :=
  l.dropWhile (fun s => s.date == d)

/-- The present-value cache (`pv1` / `pv2`) after one inner `while` loop:
the last present value of the consumed run, or the incoming cache when
the run is empty. -/
def runPV (d : ℤ) (l : List ConciseRecordSlice) (pv : ℚ) : ℚ :=
  match (runSlices d l).getLast? with
  | some s => s.present_value
  | none => pv

/-- `present_investment` contributed by one source ledger on date `d`:
the sum of the consumed run's investments. -/
def runInv (d : ℤ) (l : List ConciseRecordSlice) : ℚ :=
  ((runSlices d l).map ConciseRecordSlice.investment).sum

/-- The non-empty comments pushed by one inner `while` loop, in order. -/
def runComments (d : ℤ) (l : List ConciseRecordSlice) : List String :=
  ((runSlices d l).map ConciseRecordSlice.comment).filter (fun c => c ≠ "")

/-- `status1` / `status2` after one inner `while` loop: whether the source
ledger had at least one entry dated `d`. -/
def runStatus (d : ℤ) (l : List ConciseRecordSlice) : Bool :=
  !(runSlices d l).isEmpty

/-- `present_date`: the minimum of the two heads (the `match (rs1, rs2)`
at the top of the merge loop).  Only called when not both lists are
empty. -/
def mergeDate : List ConciseRecordSlice → List ConciseRecordSlice → ℤ
  | s1 :: _, s2 :: _ => min s1.date s2.date
  | s1 :: _, [] => s1.date
  | [], s2 :: _ => s2.date
  | [], [] => 0

/-- Each round of the merge loop consumes at least one slice: the
termination measure of `mergeRecordsAux`. -/
theorem merge_measure_lt (l1 l2 : List ConciseRecordSlice) (hE : ¬(l1 = [] ∧ l2 = [])) :
    (restSlices (mergeDate l1 l2) l1).length +
      (restSlices (mergeDate l1 l2) l2).length < l1.length + l2.length := by
  rcases l1 with _ | ⟨s1, t1⟩ <;> rcases l2 with _ | ⟨s2, t2⟩
  · exact absurd ⟨rfl, rfl⟩ hE
  · have h2 := (List.dropWhile_sublist
      (l := t2) (fun s => s.date == mergeDate [] (s2 :: t2))).length_le
    simp [restSlices, mergeDate, List.dropWhile_cons] at *
    omega
  · have h2 := (List.dropWhile_sublist
      (l := t1) (fun s => s.date == mergeDate (s1 :: t1) [])).length_le
    simp [restSlices, mergeDate, List.dropWhile_cons] at *
    omega
  · have h1 := (List.dropWhile_sublist
      (l := s1 :: t1) (fun s => s.date == mergeDate (s1 :: t1) (s2 :: t2))).length_le
    have h2 := (List.dropWhile_sublist
      (l := s2 :: t2) (fun s => s.date == mergeDate (s1 :: t1) (s2 :: t2))).length_le
    have h1' := (List.dropWhile_sublist
      (l := t1) (fun s => s.date == mergeDate (s1 :: t1) (s2 :: t2))).length_le
    have h2' := (List.dropWhile_sublist
      (l := t2) (fun s => s.date == mergeDate (s1 :: t1) (s2 :: t2))).length_le
    rcases le_total s1.date s2.date with hle | hle
    · have hd : (restSlices (mergeDate (s1 :: t1) (s2 :: t2)) (s1 :: t1)) =
        List.dropWhile (fun s => s.date == mergeDate (s1 :: t1) (s2 :: t2)) t1 := by
        simp only [restSlices, mergeDate, List.dropWhile_cons]
        rw [if_pos (by simp [min_eq_left hle])]
      have hlen : (restSlices (mergeDate (s1 :: t1) (s2 :: t2)) (s1 :: t1)).length ≤
          t1.length := by rw [hd]; exact h1'
      have hlen2 : (restSlices (mergeDate (s1 :: t1) (s2 :: t2)) (s2 :: t2)).length ≤
          (s2 :: t2).length := h2
      simp only [List.length_cons] at *
      omega
    · have hd : (restSlices (mergeDate (s1 :: t1) (s2 :: t2)) (s2 :: t2)) =
        List.dropWhile (fun s => s.date == mergeDate (s1 :: t1) (s2 :: t2)) t2 := by
        simp only [restSlices, mergeDate, List.dropWhile_cons]
        rw [if_pos (by simp [min_eq_right hle])]
      have hlen : (restSlices (mergeDate (s1 :: t1) (s2 :: t2)) (s2 :: t2)).length ≤
          t2.length := by rw [hd]; exact h2'
      have hlen2 : (restSlices (mergeDate (s1 :: t1) (s2 :: t2)) (s1 :: t1)).length ≤
          (s1 :: t1).length := h1
      simp only [List.length_cons] at *
      omega

/-- The `loop { ... }` of `merge_records!`, processing one distinct date
per step.  `acc.append` carries the Rust `panic!` of
`Record::append` as its `.error` branch. -/
def mergeRecordsAux (l1 l2 : List ConciseRecordSlice) (pv1 pv2 : ℚ)
    (acc : ConciseRecord) : Except String ConciseRecord :=
  if hE : l1 = [] ∧ l2 = [] then Except.ok acc
  else
    match acc.append (mergeDate l1 l2)
        (runInv (mergeDate l1 l2) l1 + runInv (mergeDate l1 l2) l2)
        (runPV (mergeDate l1 l2) l1 pv1 + runPV (mergeDate l1 l2) l2 pv2)
        (String.intercalate "; "
          (runComments (mergeDate l1 l2) l1 ++
           runComments (mergeDate l1 l2) l2 ++
          (if runStatus (mergeDate l1 l2) l1 && runStatus (mergeDate l1 l2) l2
           then [] else ["estimated"]))) with
    | Except.error e => Except.error e
    | Except.ok acc2 =>
      mergeRecordsAux (restSlices (mergeDate l1 l2) l1)
        (restSlices (mergeDate l1 l2) l2)
        (runPV (mergeDate l1 l2) l1 pv1) (runPV (mergeDate l1 l2) l2 pv2) acc2
termination_by l1.length + l2.length
decreasing_by exact merge_measure_lt l1 l2 hE

/-- `merge_records!(r1, r2)`: merge two ledgers into a fresh
`ConciseRecord::new("", "")`. -/
def merge_records (r1 r2 : ConciseRecord) : Except String ConciseRecord :=
  mergeRecordsAux r1.records r2.records 0 0 (ConciseRecord.new "" "")

/-! ## transaction.rs -/

/-- `struct TransactionError(&'static str)`. -/
structure TransactionError where
  msg : String
deriving DecidableEq, Repr

/-- `struct Transaction` from `transaction.rs`: the aligned calendar and
days×assets NAV matrix (row-major, one row per day).  Only the fields the
iterator reads are kept; `start_date`/`end_date` are snapshots never read
by the iterator. -/
structure Transaction where
  names : List String
  codes : List String
  date : List ℤ
  navs : List (List ℚ)
deriving DecidableEq, Repr

/-- `Transaction::ndays()`. -/
def Transaction.ndays (t : Transaction) : ℕ := t.date.length

/-- `Transaction::nfunds()`. -/
def Transaction.nfunds (t : Transaction) : ℕ := t.names.length

/-- `self.transaction.navs[[i, j]]`; the claims below only index inside
the matrix, where `getD` agrees with the Rust (panicking) indexing. -/
def Transaction.nav (t : Transaction) (i j : ℕ) : ℚ :=
  (t.navs.getD i []).getD j 0

/-- `struct IterBuffer`: the pending cash/share deltas of the current
day. -/
structure IterBuffer where
  cash : ℚ
  shares : List ℚ
deriving DecidableEq, Repr

/-- `IterBuffer::reset`. -/
def IterBuffer.reset (b : IterBuffer) : IterBuffer :=
  { cash := 0, shares := b.shares.map (fun _ => 0) }

/-- `struct IterStatus`: committed cash/shares as of the beginning of the
current day. -/
structure IterStatus where
  cash : ℚ
  shares : List ℚ
deriving DecidableEq, Repr

/-- `struct IterLog`: the optional dense per-day history (row `i` of
`shares` is day `i`). -/
structure IterLog where
  cash : List ℚ
  shares : List (List ℚ)
deriving DecidableEq, Repr

/-- `struct IterRecord`: the optional per-day investment accumulators,
comment buffers, and ledgers under construction. -/
structure IterRecord where
  investments : List ℚ
  cash_comment_buffer : String
  fund_comment_buffer : List String
  cash_record : ConciseRecord
  fund_records : List DetailedRecord
deriving DecidableEq, Repr

/-- `IterRecord::reset_buffer`. -/
def IterRecord.reset_buffer (r : IterRecord) : IterRecord :=
  { r with investments := r.investments.map (fun _ => 0),
           cash_comment_buffer := "",
           fund_comment_buffer := r.fund_comment_buffer.map (fun _ => "") }

/-- `struct TransactionIterator`, minus the immutable borrow of the
`Transaction` (passed explicitly to every operation below). -/
structure TransactionIterator where
  index : ℕ
  iter_buffer : IterBuffer
  iter_status : IterStatus
  iter_log : Option IterLog
  iter_record : Option IterRecord
deriving DecidableEq, Repr

namespace TransactionIterator

/-- `TransactionIterator::new(trans, save_log, save_record)`. -/
def new (trans : Transaction) (save_log save_record : Bool) :
    TransactionIterator :=
  { index := 0,
    iter_buffer := { cash := 0, shares := List.replicate trans.nfunds 0 },
    iter_status := { cash := 0, shares := List.replicate trans.nfunds 0 },
    iter_log :=
      if save_log then
        some { cash := List.replicate trans.ndays 0,
               shares := List.replicate trans.ndays
                 (List.replicate trans.nfunds 0) }
      else none,
    iter_record :=
      if save_record then
        some { investments := List.replicate trans.nfunds 0,
               cash_comment_buffer := "",
               fund_comment_buffer := List.replicate trans.nfunds "",
               cash_record := ConciseRecord.new "cash" "",
               fund_records := (trans.names.zip trans.codes).map
                 (fun nc => DetailedRecord.new nc.1 nc.2) }
      else none }

/-- `TransactionIterator::is_finished`. -/
def is_finished (trans : Transaction) (st : TransactionIterator) : Bool :=
  st.index == trans.ndays

/-- `TransactionIterator::today()`. -/
def today (trans : Transaction) (st : TransactionIterator) : ℤ :=
  if is_finished trans st then trans.date.getD (st.index - 1) 0
  else trans.date.getD st.index 0

/-- `TransactionIterator::cash()`: cash at the beginning of the day. -/
def cash (st : TransactionIterator) : ℚ := st.iter_status.cash

/-- `TransactionIterator::share(idx)`. -/
def share (st : TransactionIterator) (idx : ℕ) : ℚ :=
  st.iter_status.shares.getD idx 0

/-- `TransactionIterator::asset()`: total asset at the beginning of the
day, valued at the previous day's NAV row. -/
def asset (trans : Transaction) (st : TransactionIterator) : ℚ :=
  if st.index = 0 then 0
  else
    ((st.iter_status.shares.zip (trans.navs.getD (st.index - 1) [])).map
      (fun xy => xy.1 * xy.2)).sum + st.iter_status.cash

/-- Add `x` at index `i` of a cash/share vector (`vec[i] += x`).  The
claims below only use in-range indices, where this agrees with the Rust
(panicking) indexed assignment. -/
def updAdd (l : List ℚ) (i : ℕ) (x : ℚ) : List ℚ :=
  l.set i (l.getD i 0 + x)

/-- `TransactionIterator::inflow(amount)`.  On the terminal-state error
the state is returned unchanged by the caller (`Err` carries no state and
`self` was not modified). -/
def inflow (trans : Transaction) (st : TransactionIterator) (amount : ℚ) :
    Except TransactionError TransactionIterator :=
  if is_finished trans st then
    Except.error ⟨"transaction iteration reaches the end"⟩
  else
    Except.ok { st with iter_buffer :=
      { st.iter_buffer with cash := st.iter_buffer.cash + amount } }

/-- `TransactionIterator::inflow_comment(amount, comment)`.  Note the
guard: the comment is pushed only when the buffer is already non-empty,
exactly as in the source. -/
def inflow_comment (trans : Transaction) (st : TransactionIterator)
    (amount : ℚ) (comment : String) :
    Except TransactionError TransactionIterator := do
  let st ← inflow trans st amount
  match st.iter_record with
  | some record =>
    if record.cash_comment_buffer ≠ "" then
      Except.ok { st with iter_record := some { record with
        cash_comment_buffer :=
          record.cash_comment_buffer ++ "; " ++ comment } }
    else Except.ok st
  | none => Except.ok st

/-- `TransactionIterator::buy(fundid, investment, fee)`: shares are priced
at today's NAV row (`navs[[self.index, fundid]]`). -/
def buy (trans : Transaction) (st : TransactionIterator) (fundid : ℕ)
    (investment fee : ℚ) : Except TransactionError TransactionIterator :=
  if is_finished trans st then
    Except.error ⟨"transaction iteration reaches the end"⟩
  else
    let buf := { cash := st.iter_buffer.cash - investment,
                 shares := updAdd st.iter_buffer.shares fundid
                   ((investment - fee) / trans.nav st.index fundid) }
    let rec' := match st.iter_record with
      | some record => some { record with
          investments := updAdd record.investments fundid investment }
      | none => none
    Except.ok { st with iter_buffer := buf, iter_record := rec' }

/-- `TransactionIterator::buy_comment`. -/
def buy_comment (trans : Transaction) (st : TransactionIterator)
    (fundid : ℕ) (investment fee : ℚ) (comment : String) :
    Except TransactionError TransactionIterator := do
  let st ← buy trans st fundid investment fee
  match st.iter_record with
  | some record =>
    if record.fund_comment_buffer.getD fundid "" ≠ "" then
      Except.ok { st with iter_record := some { record with
        fund_comment_buffer := record.fund_comment_buffer.set fundid
          (record.fund_comment_buffer.getD fundid "" ++ "; " ++ comment) } }
    else Except.ok st
  | none => Except.ok st

/-- `TransactionIterator::sell(fundid, share, fee)`: income is priced at
today's NAV row. -/
def sell (trans : Transaction) (st : TransactionIterator) (fundid : ℕ)
    (share fee : ℚ) : Except TransactionError TransactionIterator :=
  if is_finished trans st then
    Except.error ⟨"transaction iteration reaches the end"⟩
  else
    let income := share * trans.nav st.index fundid - fee
    let buf := { cash := st.iter_buffer.cash + income,
                 shares := updAdd st.iter_buffer.shares fundid (-share) }
    let rec' := match st.iter_record with
      | some record => some { record with
          investments := updAdd record.investments fundid (-income) }
      | none => none
    Except.ok { st with iter_buffer := buf, iter_record := rec' }

/-- `TransactionIterator::sell_comment`. -/
def sell_comment (trans : Transaction) (st : TransactionIterator)
    (fundid : ℕ) (share fee : ℚ) (comment : String) :
    Except TransactionError TransactionIterator := do
  let st ← sell trans st fundid share fee
  match st.iter_record with
  | some record =>
    if record.fund_comment_buffer.getD fundid "" ≠ "" then
      Except.ok { st with iter_record := some { record with
        fund_comment_buffer := record.fund_comment_buffer.set fundid
          (record.fund_comment_buffer.getD fundid "" ++ "; " ++ comment) } }
    else Except.ok st
  | none => Except.ok st

/-- The per-fund record appends inside `flush` (`for (i, r) in
record.fund_records.iter_mut().enumerate()`); `i` counts from `i0`.
An append failure is the Rust `panic!` of `Record::append`. -/
def appendFundRecords (trans : Transaction) (index : ℕ) (today : ℤ)
    (investments bufShares : List ℚ) (comments : List String) :
    ℕ → List DetailedRecord → Except String (List DetailedRecord)
  | _, [] => Except.ok []
  | i0, r :: rs => do
    let r' ← r.append today (investments.getD i0 0) (trans.nav index i0)
      (bufShares.getD i0 0) (comments.getD i0 "")
    let rs' ← appendFundRecords trans index today investments bufShares
      comments (i0 + 1) rs
    Except.ok (r' :: rs')

/-- `TransactionIterator::flush`: commit the pending buffer into the
status, append a ledger row per record when recording is enabled, then
reset the buffers. -/
def flush (trans : Transaction) (st : TransactionIterator) :
    Except String TransactionIterator := do
  let status : IterStatus :=
    { cash := st.iter_status.cash + st.iter_buffer.cash,
      shares := (st.iter_status.shares.zip st.iter_buffer.shares).map
        (fun xy => xy.1 + xy.2) }
  let record? ← match st.iter_record with
    | some record => do
      let today := trans.date.getD st.index 0
      let cash_record ← record.cash_record.append today st.iter_buffer.cash
        status.cash record.cash_comment_buffer
      let fund_records ← appendFundRecords trans st.index today
        record.investments st.iter_buffer.shares record.fund_comment_buffer
        0 record.fund_records
      Except.ok (some (IterRecord.reset_buffer
        { record with cash_record := cash_record,
                      fund_records := fund_records }))
    | none => Except.ok none
  Except.ok { st with iter_status := status,
                      iter_record := record?,
                      iter_buffer := st.iter_buffer.reset }

/-- Fill entries `a ≤ i < b` of a log column with `v`
(`log.cash.slice_mut(s![self.index..index]).fill(...)`). -/
def fillRange {α : Type} (l : List α) (a b : ℕ) (v : α) : List α :=
  l.mapIdx (fun i x => if a ≤ i ∧ i < b then v else x)

/-- `TransactionIterator::step(n)`: move the cursor forward by `n` days
(clamped at the end of the calendar), carrying the committed state into
the log rows of all skipped days. -/
def step (trans : Transaction) (st : TransactionIterator) (n : ℕ) :
    TransactionIterator :=
  let index := min (st.index + n) trans.ndays
  let log? := match st.iter_log with
    | some log =>
      some { cash := fillRange log.cash st.index index st.iter_status.cash,
             shares := fillRange log.shares st.index index
               st.iter_status.shares }
    | none => none
  { st with index := index, iter_log := log? }

/-- `TransactionIterator::flush_and_step(n)`: returns the new state and
whether the iteration is still active (`Some(())` in Rust); the
`warning!` on `n == 0` is an I/O side effect with no state content. -/
def flush_and_step (trans : Transaction) (st : TransactionIterator)
    (n : ℕ) : Except String (TransactionIterator × Bool) := do
  if is_finished trans st then
    Except.ok (st, false)
  else
    let st ← flush trans st
    let st := step trans st n
    Except.ok (st, !is_finished trans st)

/-- `TransactionIterator::next_day()`. -/
def next_day (trans : Transaction) (st : TransactionIterator) :
    Except String (TransactionIterator × Bool) :=
  flush_and_step trans st 1

/-- The weekday of a date, modelling `chrono::Datelike::weekday` as the
residue mod 7 (faithful up to a fixed rotation of the labels). -/
def weekdayOf (d : ℤ) : ℤ := d % 7

/-- The step count computed by `TransactionIterator::next_weekday`: the
offset of the first strictly-later calendar day with the requested
weekday, or the distance to the end when none remains. -/
def nextWeekdayN (trans : Transaction) (index : ℕ) (weekday : ℤ) : ℕ :=
  match (List.range (trans.ndays - index)).find?
      (fun i => i ≠ 0 ∧ weekday = weekdayOf (trans.date.getD (index + i) 0)) with
  | some i => i
  | none => trans.ndays - index

/-- `TransactionIterator::next_weekday(weekday)`. -/
def next_weekday (trans : Transaction) (st : TransactionIterator)
    (weekday? : Option ℤ) : Except String (TransactionIterator × Bool) :=
  let weekday := weekday?.getD (weekdayOf (today trans st))
  flush_and_step trans st (nextWeekdayN trans st.index weekday)

/-- `TransactionIterator::goto(date)`: sorted-search the remaining
calendar for the first day ≥ `date`. -/
def goto (trans : Transaction) (st : TransactionIterator) (date : ℤ) :
    Except String (TransactionIterator × Bool) :=
  let n := search_sorted (trans.date.drop (min st.index trans.date.length))
    date id none
  flush_and_step trans st n

/-- `TransactionIterator::next_month(day)`.  The target date is computed
by `chrono` calendar arithmetic (`ymd` decomposition, month rollover,
day-of-month clamping); it is abstracted as the parameter `nmTarget`,
taking today's date and the optional `day` argument.  The subsequent
sorted search over the 60-day window and the step are from the source. -/
def next_month (nmTarget : ℤ → Option ℕ → ℤ) (trans : Transaction)
    (st : TransactionIterator) (day? : Option ℕ) :
    Except String (TransactionIterator × Bool) :=
  let date := nmTarget (today trans st) day?
  let lo := min (st.index + 1) trans.date.length
  let hi := min (st.index + 61) trans.date.length
  let n := search_sorted ((trans.date.drop lo).take (hi - lo)) date id none
    + 1
  flush_and_step trans st n

end TransactionIterator

/-! ### A strategy session: a fixed sequence of public operations

`Op` is one public call a strategy can issue; `runOp`/`runOps` replay a
sequence against an iterator exactly as a Rust caller would: a
`TransactionError` (`Result::Err`) leaves the iterator untouched and the
caller may continue; a `panic!` (the `Except.error` of the advance
operations) aborts the run. -/

inductive Op where
  | inflow (amount : ℚ)
  | inflow_comment (amount : ℚ) (comment : String)
  | buy (fundid : ℕ) (investment fee : ℚ)
  | buy_comment (fundid : ℕ) (investment fee : ℚ) (comment : String)
  | sell (fundid : ℕ) (share fee : ℚ)
  | sell_comment (fundid : ℕ) (share fee : ℚ) (comment : String)
  | next_day
  | next_weekday (weekday? : Option ℤ)
  | goto (date : ℤ)
  | next_month (day? : Option ℕ)
deriving DecidableEq, Repr

/-- Replay one public call.  `nmTarget` abstracts the `chrono` date
arithmetic of `next_month` (see `TransactionIterator.next_month`). -/
def runOp (nmTarget : ℤ → Option ℕ → ℤ) (trans : Transaction)
    (st : TransactionIterator) : Op → Except String TransactionIterator
  | Op.inflow a =>
    match TransactionIterator.inflow trans st a with
    | Except.ok st' => Except.ok st'
    | Except.error _ => Except.ok st
  | Op.inflow_comment a c =>
    match TransactionIterator.inflow_comment trans st a c with
    | Except.ok st' => Except.ok st'
    | Except.error _ => Except.ok st
  | Op.buy f i fee =>
    match TransactionIterator.buy trans st f i fee with
    | Except.ok st' => Except.ok st'
    | Except.error _ => Except.ok st
  | Op.buy_comment f i fee c =>
    match TransactionIterator.buy_comment trans st f i fee c with
    | Except.ok st' => Except.ok st'
    | Except.error _ => Except.ok st
  | Op.sell f s fee =>
    match TransactionIterator.sell trans st f s fee with
    | Except.ok st' => Except.ok st'
    | Except.error _ => Except.ok st
  | Op.sell_comment f s fee c =>
    match TransactionIterator.sell_comment trans st f s fee c with
    | Except.ok st' => Except.ok st'
    | Except.error _ => Except.ok st
  | Op.next_day =>
    (TransactionIterator.next_day trans st).map Prod.fst
  | Op.next_weekday w =>
    (TransactionIterator.next_weekday trans st w).map Prod.fst
  | Op.goto d =>
    (TransactionIterator.goto trans st d).map Prod.fst
  | Op.next_month d =>
    (TransactionIterator.next_month nmTarget trans st d).map Prod.fst

/-- Replay a whole sequence of public calls. -/
def runOps (nmTarget : ℤ → Option ℕ → ℤ) (trans : Transaction)
    (st : TransactionIterator) (ops : List Op) :
    Except String TransactionIterator :=
  ops.foldlM (runOp nmTarget trans) st

/-- The simulation-arithmetic projection of an iterator state: the day
cursor and the pending/committed cash and shares — everything
`present_asset()` can depend on. -/
def simProj (st : TransactionIterator) : ℕ × ℚ × List ℚ × ℚ × List ℚ :=
  (st.index, st.iter_buffer.cash, st.iter_buffer.shares,
   st.iter_status.cash, st.iter_status.shares)

/-! ## Specification-side definitions

These follow the wording of the specification (not the implementation);
the theorems below compare the implementation against them. -/

/-- The bracketing contract of `search_sorted` as stated in its
documentation table and in the spec: for a result index `i`, each
inequality is required wherever the corresponding neighbour exists. -/
def bracketOk {T U : Type} [LinearOrder U] (a : List T) (v : U)
    (key : T → U) : SIDE → ℕ → Prop
  | SIDE.LEFT, i =>
    (1 ≤ i → ∀ s ∈ a.get? (i - 1), key s < v) ∧ (∀ s ∈ a.get? i, v ≤ key s)
  | SIDE.RIGHT, i =>
    (1 ≤ i → ∀ s ∈ a.get? (i - 1), key s ≤ v) ∧ (∀ s ∈ a.get? i, v < key s)

/-- A ledger's entries are non-decreasing by date. -/
def DateSorted (l : List ConciseRecordSlice) : Prop :=
  l.Pairwise (fun a b => a.date ≤ b.date)

/-- A detailed ledger's entries are non-decreasing by date. -/
def DateSortedD (l : List DetailedRecordSlice) : Prop :=
  l.Pairwise (fun a b => a.date ≤ b.date)

/-- All entries of a ledger dated exactly `d`. -/
def entriesAt (d : ℤ) (l : List ConciseRecordSlice) :
    List ConciseRecordSlice :=
  l.filter (fun s => s.date == d)

/-- The total investment a ledger carries on date `d`. -/
def sumInvAt (d : ℤ) (l : List ConciseRecordSlice) : ℚ :=
  ((entriesAt d l).map ConciseRecordSlice.investment).sum

/-- The non-empty comments a ledger carries on date `d`, in order. -/
def commentsAt (d : ℤ) (l : List ConciseRecordSlice) : List String :=
  ((entriesAt d l).map ConciseRecordSlice.comment).filter (fun c => c ≠ "")

/-- Whether a ledger has an entry dated `d`. -/
def hasEntryOn (l : List ConciseRecordSlice) (d : ℤ) : Bool :=
  l.any (fun s => s.date == d)

/-- The comment the spec prescribes for the merged entry on date `d`:
the sources' non-empty comments joined with `"; "`, plus the literal tag
`"estimated"` exactly when not every source ledger has an entry dated
`d`. -/
def mergeCommentSpec (d : ℤ) (l1 l2 : List ConciseRecordSlice) : String :=
  String.intercalate "; " (commentsAt d l1 ++ commentsAt d l2 ++
    (if hasEntryOn l1 d && hasEntryOn l2 d then [] else ["estimated"]))

/-- One Newton step `x - f(x)/d(x)`. -/
def newtonStep (f d : ℚ → ℚ) (x : ℚ) : ℚ := x - f x / d x

/-- The `k`-th Newton iterate starting from `x0`. -/
def newtonIter (f d : ℚ → ℚ) (x0 : ℚ) (k : ℕ) : ℚ :=
  (newtonStep f d)^[k] x0

/-- The `t` array `irr_direct` passes to `irr`: day counts from the start
date and from each selected entry to the end date. -/
def irrDirectDays (r : ConciseRecord) (start_date end_date : ℤ)
    (start_idx end_idx : ℕ) : List ℚ :=
  (start_date :: ((r.records.drop start_idx).take (end_idx - start_idx)).map
    ConciseRecordSlice.date).map (fun ti => ((end_date - ti : ℤ) : ℚ))

/-- The `x` array `irr_direct` passes to `irr`: the start value followed
by the selected entries' investments. -/
def irrDirectInvestments (r : ConciseRecord) (start_value : ℚ)
    (start_idx end_idx : ℕ) : List ℚ :=
  start_value :: ((r.records.drop start_idx).take (end_idx - start_idx)).map
    ConciseRecordSlice.investment

/-- Two iterator states agree on everything the simulation arithmetic
reads: the day cursor and the pending/committed cash and shares. -/
def SimEq (a b : TransactionIterator) : Prop :=
  a.index = b.index ∧ a.iter_buffer.cash = b.iter_buffer.cash ∧
  a.iter_buffer.shares = b.iter_buffer.shares ∧
  a.iter_status.cash = b.iter_status.cash ∧
  a.iter_status.shares = b.iter_status.shares

/-- While the iterator is active, every ledger entry recorded so far is
dated no later than the current calendar day: the invariant that keeps
`flush`'s ledger appends panic-free. -/
def RecGood (trans : Transaction) (st : TransactionIterator) : Prop :=
  ∀ rec, st.iter_record = some rec → st.index < trans.ndays →
    (∀ s ∈ rec.cash_record.records, s.date ≤ trans.date.getD st.index 0) ∧
    (∀ fr ∈ rec.fund_records, ∀ s ∈ fr.records,
      s.date ≤ trans.date.getD st.index 0)

/-- The ledgers under construction (cash ledger and per-fund ledgers)
agree between two optional recording states; the comment buffers and
investment accumulators may differ. -/
def recLedgersEq : Option IterRecord → Option IterRecord → Prop
  | some r', some r =>
    r'.cash_record = r.cash_record ∧ r'.fund_records = r.fund_records
  | none, none => True
  | _, _ => False

/-! ## Concrete fixtures -/

/-- The single-asset three-day calendar of the spec's concrete scenario:
NAVs `[100, 101, 102]` on days `0, 1, 2`. -/
def calT3 : Transaction := ⟨["f"], ["000"], [0, 1, 2], [[100], [101], [102]]⟩

/-- A trivial stand-in for the `chrono` date arithmetic of `next_month`
(never exercised by the fixtures, which do not call `next_month`). -/
def nmT0 : ℤ → Option ℕ → ℤ := fun d _ => d

/-- The comments stored in the cash ledger of an iterator (empty when
recording is off). -/
def cashComments (st : TransactionIterator) : List String :=
  match st.iter_record with
  | some r => r.cash_record.records.map ConciseRecordSlice.comment
  | none => []

/-- The comments stored in fund `i`'s ledger of an iterator. -/
def fundComments (st : TransactionIterator) (i : ℕ) : List String :=
  match st.iter_record with
  | some r => ((r.fund_records.getD i (DetailedRecord.new "" "")).records).map
      DetailedRecordSlice.comment
  | none => []

/-! ## Theorems -/

/-- C9: for every investment array whose entries are all zero, `irr`
returns the recoverable failure `none` immediately — for every days
array, end value and initial guess, and for every model of the float
intrinsics (in particular, no Newton iteration can influence the
result). -/
theorem c9_irr_all_zero_fails_fast (expF lnF : ℚ → ℚ)
    (days_array investment_array : List ℚ) (end_value x0 : ℚ)
    (h : ∀ i ∈ investment_array, i = 0) :
    irr expF lnF days_array investment_array end_value x0 = none := by
  unfold irr
  rw [if_pos]
  simp only [List.all_eq_true, beq_iff_eq]
  exact h

/-- Witness for C9 at a concrete input. -/
theorem c9_irr_all_zero_fails_fast_witness :
    irr id id [360, 720] [0, 0] 5 0 = none :=
  c9_irr_all_zero_fails_fast id id [360, 720] [0, 0] 5 0 (by decide)

/-- C2 (refutation): on the sorted slice `[2, 4]` with `v = 4` and
`side = RIGHT`, `search_sorted` returns `0`, which violates the
bracketing contract of its own documentation (`key(a[i-1]) <= v <
key(a[i])` wherever the neighbour exists): the required inequality at
`i = 0` is `4 < 2`. -/
theorem c2_search_sorted_right_of_max_bug :
    search_sorted ([2, 4] : List ℤ) 4 id (some SIDE.RIGHT) = 0 ∧
    ¬ bracketOk ([2, 4] : List ℤ) 4 id SIDE.RIGHT 0 := by
  constructor
  · rw [search_sorted]
    norm_num
    rw [ssLoop]
    norm_num
  · intro hbr
    have h2 := hbr.2 2 (by decide)
    norm_num at h2

/-- C10: on every empty `Record`, `irr` with a defaulted start date (or a
defaulted end date) panics by out-of-bounds indexing while defaulting the
boundary date from `records[0]` / `records[len - 1]` — for every other
argument and every model of the float intrinsics. -/
theorem c10_irr_empty_record_panics (expF lnF : ℚ → ℚ)
    (name code comment : String) (ed? : Option ℤ) (sd : ℤ)
    (sv ev x0 : Option ℚ) :
    ConciseRecord.irr expF lnF ⟨name, code, comment, []⟩ none ed? sv ev x0 =
      Except.error "index out of bounds" ∧
    ConciseRecord.irr expF lnF ⟨name, code, comment, []⟩ (some sd) none sv ev
      x0 = Except.error "index out of bounds" := by
  constructor <;> rfl

/-- C5 (refutation): with recording enabled, comments passed to
`inflow_comment` and `buy_comment` never reach the day's ledger entry:
the guard `if !buffer.is_empty()` only appends to an already non-empty
buffer, and nothing else ever fills it, so the flushed entries carry the
empty comment where the spec requires `"note; second note"` (cash leg)
and `"fund note; second fund note"` (fund leg). -/
theorem c5_comments_dropped :
    (runOps nmT0 calT3 (TransactionIterator.new calT3 false true)
      [Op.inflow_comment 100 "note", Op.buy_comment 0 50 0 "fund note",
       Op.inflow_comment 1 "second note",
       Op.buy_comment 0 5 0 "second fund note",
       Op.next_day]).map cashComments = Except.ok [""] ∧
    (runOps nmT0 calT3 (TransactionIterator.new calT3 false true)
      [Op.inflow_comment 100 "note", Op.buy_comment 0 50 0 "fund note",
       Op.inflow_comment 1 "second note",
       Op.buy_comment 0 5 0 "second fund note",
       Op.next_day]).map (fun st => fundComments st 0) =
      Except.ok [""] := by
  constructor <;> rfl

/-- C7: once the iterator is `Finished` (`index == ndays`), `inflow`,
`buy` and `sell` all return the terminal-state error and a caller's
iterator is left unchanged; while it is `Active` (`index < ndays`) they
succeed (for fund ids inside the asset universe). -/
theorem c7_terminal_state_gating (nmT : ℤ → Option ℕ → ℤ)
    (trans : Transaction) (st : TransactionIterator) (a iv fee sh : ℚ)
    (f : ℕ) :
    (st.index = trans.ndays →
      TransactionIterator.inflow trans st a =
        Except.error ⟨"transaction iteration reaches the end"⟩ ∧
      TransactionIterator.buy trans st f iv fee =
        Except.error ⟨"transaction iteration reaches the end"⟩ ∧
      TransactionIterator.sell trans st f sh fee =
        Except.error ⟨"transaction iteration reaches the end"⟩ ∧
      runOp nmT trans st (Op.inflow a) = Except.ok st ∧
      runOp nmT trans st (Op.buy f iv fee) = Except.ok st ∧
      runOp nmT trans st (Op.sell f sh fee) = Except.ok st) ∧
    (st.index < trans.ndays →
      (∃ st', TransactionIterator.inflow trans st a = Except.ok st') ∧
      (f < trans.nfunds →
        ∃ st', TransactionIterator.buy trans st f iv fee = Except.ok st') ∧
      (f < trans.nfunds →
        ∃ st', TransactionIterator.sell trans st f sh fee =
          Except.ok st')) := by
  constructor
  · intro hfin
    have hb : TransactionIterator.is_finished trans st = true := by
      simp [TransactionIterator.is_finished, hfin]
    refine ⟨?_, ?_, ?_, ?_, ?_, ?_⟩ <;>
      simp [TransactionIterator.inflow, TransactionIterator.buy,
        TransactionIterator.sell, runOp, hb]
  · intro hact
    have hb : TransactionIterator.is_finished trans st = false := by
      simp [TransactionIterator.is_finished]
      omega
    simp only [TransactionIterator.inflow, TransactionIterator.buy,
      TransactionIterator.sell, hb, Bool.false_eq_true, if_false]
    exact ⟨⟨_, rfl⟩, fun _ => ⟨_, rfl⟩, fun _ => ⟨_, rfl⟩⟩

/-- Witness for C7: the gating evaluated on the three-day calendar, at a
finished state and at the fresh (active) state. -/
theorem c7_terminal_state_gating_witness :
    TransactionIterator.inflow calT3
      { TransactionIterator.new calT3 false false with index := 3 } 5 =
      Except.error ⟨"transaction iteration reaches the end"⟩ ∧
    (∃ st', TransactionIterator.inflow calT3
      (TransactionIterator.new calT3 false false) 5 = Except.ok st') := by
  constructor
  · exact ((c7_terminal_state_gating nmT0 calT3
      { TransactionIterator.new calT3 false false with index := 3 }
      5 0 0 0 0).1 (by decide)).1
  · exact ((c7_terminal_state_gating nmT0 calT3
      (TransactionIterator.new calT3 false false) 5 0 0 0 0).2
      (by decide)).1

/-- C3: buys and sells always price at the current day's NAV row
(`navs[[self.index, fundid]]`), and on the single-asset calendar
`[100, 101, 102]`, `inflow(100)` then `buy(0, 100, fee=0)` on day 0 gives
share count exactly `1`, `asset() = 100` after the first `next_day()`,
and `asset() = 101` after the second. -/
theorem c3_buy_sell_price_at_current_day
    (trans : Transaction) (st : TransactionIterator) (f : ℕ) (iv sh fee : ℚ)
    (hact : st.index < trans.ndays) :
    (∃ st', TransactionIterator.buy trans st f iv fee = Except.ok st' ∧
      st'.iter_buffer.cash = st.iter_buffer.cash - iv ∧
      st'.iter_buffer.shares = TransactionIterator.updAdd st.iter_buffer.shares
        f ((iv - fee) / trans.nav st.index f) ∧
      st'.index = st.index) ∧
    (∃ st', TransactionIterator.sell trans st f sh fee = Except.ok st' ∧
      st'.iter_buffer.cash = st.iter_buffer.cash +
        (sh * trans.nav st.index f - fee) ∧
      st'.iter_buffer.shares = TransactionIterator.updAdd st.iter_buffer.shares
        f (-sh) ∧
      st'.index = st.index) ∧
    (runOps nmT0 calT3 (TransactionIterator.new calT3 false false)
      [Op.inflow 100, Op.buy 0 100 0, Op.next_day]).map
      (fun st => (st.index, TransactionIterator.share st 0,
        TransactionIterator.asset calT3 st)) = Except.ok (1, 1, 100) ∧
    (runOps nmT0 calT3 (TransactionIterator.new calT3 false false)
      [Op.inflow 100, Op.buy 0 100 0, Op.next_day, Op.next_day]).map
      (fun st => (st.index, TransactionIterator.share st 0,
        TransactionIterator.asset calT3 st)) = Except.ok (2, 1, 101) := by
  have hb : TransactionIterator.is_finished trans st = false := by
    simp [TransactionIterator.is_finished]
    omega
  refine ⟨?_, ?_, ?_, ?_⟩
  · simp only [TransactionIterator.buy, hb, Bool.false_eq_true, if_false]
    exact ⟨_, rfl, rfl, rfl, rfl⟩
  · simp only [TransactionIterator.sell, hb, Bool.false_eq_true, if_false]
    exact ⟨_, rfl, rfl, rfl, rfl⟩
  · norm_num [runOps, runOp, calT3, nmT0, TransactionIterator.new,
      TransactionIterator.inflow, TransactionIterator.buy,
      TransactionIterator.next_day, TransactionIterator.flush_and_step,
      TransactionIterator.flush, TransactionIterator.step,
      TransactionIterator.is_finished, TransactionIterator.share,
      TransactionIterator.asset, TransactionIterator.updAdd,
      Transaction.nav, Transaction.ndays, Transaction.nfunds,
      IterBuffer.reset, TransactionIterator.fillRange,
      List.foldlM_cons, List.foldlM_nil, Except.map, Except.bind, bind,
      Except.pure, pure, List.getD, List.set]
  · norm_num [runOps, runOp, calT3, nmT0, TransactionIterator.new,
      TransactionIterator.inflow, TransactionIterator.buy,
      TransactionIterator.next_day, TransactionIterator.flush_and_step,
      TransactionIterator.flush, TransactionIterator.step,
      TransactionIterator.is_finished, TransactionIterator.share,
      TransactionIterator.asset, TransactionIterator.updAdd,
      Transaction.nav, Transaction.ndays, Transaction.nfunds,
      IterBuffer.reset, TransactionIterator.fillRange,
      List.foldlM_cons, List.foldlM_nil, Except.map, Except.bind, bind,
      Except.pure, pure, List.getD, List.set]

/-- Witness for C3: the buy/sell pricing statements at the fresh iterator
on the three-day calendar. -/
theorem c3_buy_sell_price_at_current_day_witness :
    ∃ st', TransactionIterator.buy calT3
      (TransactionIterator.new calT3 false false) 0 100 0 = Except.ok st' ∧
      st'.iter_buffer.cash =
        (TransactionIterator.new calT3 false false).iter_buffer.cash - 100 ∧
      st'.iter_buffer.shares = TransactionIterator.updAdd
        (TransactionIterator.new calT3 false false).iter_buffer.shares 0
        ((100 - 0) / calT3.nav 0 0) ∧
      st'.index = (TransactionIterator.new calT3 false false).index :=
  (c3_buy_sell_price_at_current_day calT3
    (TransactionIterator.new calT3 false false) 0 100 0 0 (by decide)).1

/-- Helper for C4: when every Newton step moves by at least the
tolerance, the iteration loop exhausts any budget and yields `none`. -/
theorem newton1dLoop_const_none (f d : ℚ → ℚ) (tol : ℚ)
    (h : ∀ x : ℚ, ¬ |x - f x / d x - x| < tol) :
    ∀ (m : ℕ) (x : ℚ), newton1dLoop f d tol m x = none := by
  intro m
  induction m with
  | zero => intro x; rfl
  | succ k ih =>
    intro x
    rw [newton1dLoop]
    simp only [if_neg (h x)]
    exact ih _

/-- C4 (refutation): `Record::irr_direct` panics
(`.expect("fail to solve irr")`) instead of propagating a recoverable
error on the one-entry record dated day 0 with investment 1 when asked
for the rate reaching end value `-1` one year later.  At this input the
Newton problem is `f(p) = -1 - e^p`, which is bounded above by `-1` (a
negative end value cannot be reached from nonnegative investments, so
there is no root), and every Newton step moves by `1 + e^(-p) > 1`,
far above the `1e-6` tolerance — for *every* positive-valued model of
`f64::exp` and every model of `f64::ln`, as the companion
`c4_newton_none_propagation` proves (and in `f64` arithmetic the deep
underflow regime `e^p = 0` only yields `±inf`/`NaN` steps, which also
never meet the tolerance).  So the real run exhausts all 1000
iterations, `irr` returns `None`, and `irr_direct` aborts.  This closed
instance fixes one admissible (positive-valued) model of the
intrinsics; by the companion theorem the outcome is the same for every
other one. -/
theorem c4_irr_direct_panics_on_nonconvergence :
    ConciseRecord.irr_direct (fun _ => 1) (fun _ => 0)
      ⟨"", "", "", [⟨0, 1, 1, "", 1, 0⟩]⟩ 0 360 0 (-1) 0 1 0 =
      Except.error "fail to solve irr" := by
  have hirr : irr (fun _ => (1:ℚ)) (fun _ => (0:ℚ)) [360, 360] [0, 1] (-1) 0
      = none := by
    rw [irr]
    rw [if_neg (by simp)]
    have hf : (fun p : ℚ => (-1:ℚ) - (List.map (fun tx : ℚ × ℚ => tx.2 * 1)
        ((List.map (fun x : ℚ => x / DAYS_PER_YEAR) [360, 360]).zip
          ([0, 1] : List ℚ))).sum) = fun _ => (-2:ℚ) := by
      funext p
      norm_num [DAYS_PER_YEAR]
    have hg : (fun p : ℚ => (List.map (fun tx : ℚ × ℚ => -tx.2 * tx.1 * 1)
        ((List.map (fun x : ℚ => x / DAYS_PER_YEAR) [360, 360]).zip
          ([0, 1] : List ℚ))).sum) = fun _ => (-1:ℚ) := by
      funext p
      norm_num [DAYS_PER_YEAR]
    have h2 : newton1d (fun _ => (-2:ℚ)) (fun _ => (-1:ℚ)) 0 (1 / 1000000)
        1000 = none := by
      apply newton1dLoop_const_none
      intro x
      rw [show x - (-2:ℚ) / (-1) - x = -2 from by ring]
      rw [abs_neg, abs_of_pos (by norm_num : (0:ℚ) < 2)]
      norm_num
    simp only [hf, hg, h2]
  rw [ConciseRecord.irr_direct]
  rw [if_neg (by norm_num)]
  norm_num
  rw [hirr]

/-- C4 (amended): when successive Newton iterates never come within the
tolerance, `newton1d` runs its whole budget and returns the recoverable
`none` (it cannot panic); `utility::irr` propagates that `none`; but
`Record::irr_direct` (and hence `Record::irr`, whose last step is
`irr_direct`) panics via `.expect("fail to solve irr")` on it instead of
returning a recoverable error.  The last conjunct pins this down on a
concrete non-convergent input independently of how the float intrinsics
are modelled: on the one-entry ledger dated day 0 with investment 1 and
end value `-1` one year later, `irr_direct` aborts for *every*
positive-valued model of `f64::exp` (the real `f64::exp` is
positive-valued wherever it does not underflow to zero, and in the
underflow regime the `f64` Newton step degenerates to `±inf`/`NaN`,
which never meets the tolerance either) and every model of `f64::ln`
(the starting point is irrelevant to the divergence). -/
theorem c4_newton_none_propagation
    (f d : ℚ → ℚ) (x0 tol : ℚ) (m : ℕ)
    (hdiv : ∀ k < m,
      ¬ |newtonIter f d x0 (k + 1) - newtonIter f d x0 k| < tol) :
    newton1d f d x0 tol m = none ∧
    (∀ (expF lnF : ℚ → ℚ) (r : ConciseRecord) (sd ed : ℤ) (sv ev : ℚ)
      (si ei : ℕ) (x0' : ℚ), si ≤ ei → ei ≤ r.records.length →
      irr expF lnF (irrDirectDays r sd ed si ei)
        (irrDirectInvestments r sv si ei) ev x0' = none →
      ConciseRecord.irr_direct expF lnF r sd ed sv ev si ei x0' =
        Except.error "fail to solve irr") ∧
    (∀ expF lnF : ℚ → ℚ, (∀ z, 0 < expF z) →
      ConciseRecord.irr_direct expF lnF
        ⟨"", "", "", [⟨0, 1, 1, "", 1, 0⟩]⟩ 0 360 0 (-1) 0 1 0 =
        Except.error "fail to solve irr") := by
  refine ⟨?_, ?_, ?_⟩
  · unfold newton1d
    induction m generalizing x0 with
    | zero => rfl
    | succ k ih =>
      rw [newton1dLoop]
      have h0 := hdiv 0 (Nat.succ_pos k)
      simp only [newtonIter, zero_add, Function.iterate_one,
        Function.iterate_zero, id_eq, newtonStep] at h0
      simp only [if_neg h0]
      apply ih
      intro j hj
      have h2 := hdiv (j + 1) (by omega)
      have e1 : newtonIter f d (x0 - f x0 / d x0) (j + 1) =
          newtonIter f d x0 (j + 1 + 1) := by
        show (newtonStep f d)^[j + 1] (x0 - f x0 / d x0) =
          (newtonStep f d)^[j + 1 + 1] x0
        exact (Function.iterate_succ_apply (newtonStep f d) (j + 1) x0).symm
      have e2 : newtonIter f d (x0 - f x0 / d x0) j =
          newtonIter f d x0 (j + 1) := by
        show (newtonStep f d)^[j] (x0 - f x0 / d x0) =
          (newtonStep f d)^[j + 1] x0
        exact (Function.iterate_succ_apply (newtonStep f d) j x0).symm
      rw [e1, e2]
      exact h2
  · intro expF lnF r sd ed sv ev si ei x0' h1 h2 h
    simp only [irrDirectDays, irrDirectInvestments] at h
    rw [ConciseRecord.irr_direct]
    rw [if_neg (not_not_intro ⟨h1, h2⟩)]
    simp only [h]
  · intro expF lnF hpos
    have hstep : ∀ x : ℚ,
        ¬ |x - ((-1:ℚ) - expF x) / (-expF x) - x| < 1 / 1000000 := by
      intro x hlt
      have hE := hpos x
      have hdivEq : ((-1:ℚ) - expF x) / (-expF x) =
          (1 + expF x) / expF x := by
        rw [div_eq_div_iff (neg_ne_zero.mpr (ne_of_gt hE)) (ne_of_gt hE)]
        ring
      have habs : x - (1 + expF x) / expF x - x =
          -((1 + expF x) / expF x) := by ring
      rw [hdivEq, habs, abs_neg,
        abs_of_pos (div_pos (by linarith) hE)] at hlt
      have hgt : (1:ℚ) < (1 + expF x) / expF x := by
        rw [lt_div_iff₀ hE]
        linarith
      linarith
    have hf : (fun p : ℚ => (-1:ℚ) -
        (List.map (fun tx : ℚ × ℚ => tx.2 * expF (p * tx.1))
        ((List.map (fun x : ℚ => x / DAYS_PER_YEAR) [360, 360]).zip
          ([0, 1] : List ℚ))).sum) = fun p => (-1:ℚ) - expF p := by
      funext p
      norm_num [DAYS_PER_YEAR]
    have hg : (fun p : ℚ =>
        (List.map (fun tx : ℚ × ℚ => -tx.2 * tx.1 * expF (p * tx.1))
        ((List.map (fun x : ℚ => x / DAYS_PER_YEAR) [360, 360]).zip
          ([0, 1] : List ℚ))).sum) = fun p => -expF p := by
      funext p
      norm_num [DAYS_PER_YEAR]
    have hnone : newton1d (fun p : ℚ => (-1:ℚ) - expF p)
        (fun p : ℚ => -expF p) (lnF (0 + 1)) (1 / 1000000) 1000 = none := by
      apply newton1dLoop_const_none
      intro x
      exact hstep x
    have hirr : irr expF lnF [360, 360] [0, 1] (-1) 0 = none := by
      rw [irr]
      rw [if_neg (by simp)]
      simp only [hf, hg, hnone]
    rw [ConciseRecord.irr_direct]
    rw [if_neg (by norm_num)]
    norm_num
    rw [hirr]

/-- Witness for C4: a Newton run with constant residual 2 and derivative
-1 never moves within tolerance and exhausts a 1000-step budget. -/
theorem c4_newton_none_propagation_witness :
    newton1d (fun _ : ℚ => (2:ℚ)) (fun _ : ℚ => (-1:ℚ)) 0 (1 / 1000000) 1000
      = none := by
  refine (c4_newton_none_propagation (fun _ => 2) (fun _ => -1) 0
    (1 / 1000000) 1000 ?_).1
  intro k hk
  have e : newtonIter (fun _ : ℚ => (2:ℚ)) (fun _ : ℚ => (-1:ℚ)) 0 (k + 1) -
      newtonIter (fun _ : ℚ => (2:ℚ)) (fun _ : ℚ => (-1:ℚ)) 0 k = 2 := by
    rw [newtonIter, newtonIter, Function.iterate_succ_apply']
    rw [newtonStep]
    ring
  rw [e]
  rw [abs_of_pos (by norm_num : (0:ℚ) < 2)]
  norm_num

/-- Every element of a list that is pairwise non-decreasing under `f` is
bounded by the `f`-value of the last element. -/
theorem pairwise_le_getLast {α : Type} (f : α → ℤ) (l : List α)
    (hp : l.Pairwise (fun a b => f a ≤ f b)) (a : α) (ha : a ∈ l) :
    f a ≤ ((l.getLast?).map f).getD 0 := by
  induction l with
  | nil => cases ha
  | cons x t ih =>
    have hp' := List.pairwise_cons.mp hp
    rcases t with _ | ⟨y, t'⟩
    · rcases List.mem_cons.mp ha with rfl | hmem
      · simp
      · cases hmem
    · rw [List.getLast?_cons_cons]
      rcases List.mem_cons.mp ha with rfl | hmem
      · rw [List.getLast?_eq_getLast _ (by simp)]
        exact hp'.1 _ (List.getLast_mem _)
      · exact ih hp'.2 hmem

/-- C8: `Record::append` (concise and detailed) aborts exactly when the
record is non-empty and the new date is strictly earlier than the last
entry's date; a successful append preserves the non-decreasing date
invariant, so every record built by appends has non-decreasing dates. -/
theorem c8_append_ordering
    (r : ConciseRecord) (dr : DetailedRecord) (d : ℤ)
    (inv pv nav sh : ℚ) (c : String) :
    ((∃ e, r.append d inv pv c = Except.error e) ↔
      r.records ≠ [] ∧
        d < ((r.records.getLast?).map ConciseRecordSlice.date).getD 0) ∧
    ((∃ e, dr.append d inv nav sh c = Except.error e) ↔
      dr.records ≠ [] ∧
        d < ((dr.records.getLast?).map DetailedRecordSlice.date).getD 0) ∧
    (DateSorted r.records → ∀ r', r.append d inv pv c = Except.ok r' →
      DateSorted r'.records) ∧
    (DateSortedD dr.records → ∀ dr', dr.append d inv nav sh c =
      Except.ok dr' → DateSortedD dr'.records) := by
  refine ⟨?_, ?_, ?_, ?_⟩
  · unfold ConciseRecord.append
    by_cases hc : r.records ≠ [] ∧
        d < ((r.records.getLast?).map ConciseRecordSlice.date).getD 0
    · rw [if_pos hc]
      simp [hc]
    · rw [if_neg hc]
      simp [hc]
  · unfold DetailedRecord.append
    by_cases hc : dr.records ≠ [] ∧
        d < ((dr.records.getLast?).map DetailedRecordSlice.date).getD 0
    · rw [if_pos hc]
      simp [hc]
    · rw [if_neg hc]
      simp [hc]
  · intro hs r' h
    unfold ConciseRecord.append at h
    by_cases hc : r.records ≠ [] ∧
        d < ((r.records.getLast?).map ConciseRecordSlice.date).getD 0
    · rw [if_pos hc] at h
      cases h
    · rw [if_neg hc] at h
      simp only [Except.ok.injEq] at h
      subst h
      simp only [DateSorted, List.pairwise_append]
      refine ⟨hs, by simp, ?_⟩
      intro a ha b hb
      simp only [List.mem_singleton] at hb
      subst hb
      by_cases hne : r.records = []
      · rw [hne] at ha; cases ha
      · push_neg at hc
        have hd := hc hne
        have := pairwise_le_getLast ConciseRecordSlice.date r.records hs a ha
        simp only []
        omega
  · intro hs dr' h
    unfold DetailedRecord.append at h
    by_cases hc : dr.records ≠ [] ∧
        d < ((dr.records.getLast?).map DetailedRecordSlice.date).getD 0
    · rw [if_pos hc] at h
      cases h
    · rw [if_neg hc] at h
      simp only [Except.ok.injEq] at h
      subst h
      simp only [DateSortedD, List.pairwise_append]
      refine ⟨hs, by simp, ?_⟩
      intro a ha b hb
      simp only [List.mem_singleton] at hb
      subst hb
      by_cases hne : dr.records = []
      · rw [hne] at ha; cases ha
      · push_neg at hc
        have hd := hc hne
        have := pairwise_le_getLast DetailedRecordSlice.date dr.records hs a ha
        simp only []
        omega

/-- Witness for C8: a backdated append on a one-entry ledger errors, and
a forward append keeps the dates non-decreasing. -/
theorem c8_append_ordering_witness :
    (∃ e, (⟨"", "", "", [⟨5, 1, 1, "", 1, 0⟩]⟩ : ConciseRecord).append 3 1 1
      "" = Except.error e) ∧
    DateSorted [⟨5, 1, 1, "", 1, 0⟩, ⟨7, 1, 2, "", 2, 0⟩] := by
  constructor
  · exact ((c8_append_ordering ⟨"", "", "", [⟨5, 1, 1, "", 1, 0⟩]⟩
      (DetailedRecord.new "" "") 3 1 1 0 0 "").1).mpr
      ⟨by simp, by norm_num⟩
  · have h := (c8_append_ordering ⟨"", "", "", [⟨5, 1, 1, "", 1, 0⟩]⟩
      (DetailedRecord.new "" "") 7 1 2 0 0 "").2.2.1
    have hs : DateSorted ([⟨5, 1, 1, "", 1, 0⟩] :
        List ConciseRecordSlice) := by
      simp [DateSorted]
    have happ : (⟨"", "", "", [⟨5, 1, 1, "", 1, 0⟩]⟩ : ConciseRecord).append
        7 1 2 "" = Except.ok ⟨"", "", "", [⟨5, 1, 1, "", 1, 0⟩,
          ⟨7, 1, 2, "", 2, 0⟩]⟩ := by
      unfold ConciseRecord.append
      rw [if_neg (by norm_num)]
      norm_num
    exact h hs _ happ

/-! ### Lemmas about one round of the merge loop -/

/-- The consumed run and the rest reassemble the source ledger. -/
theorem runSlices_append_restSlices (d : ℤ) (l : List ConciseRecordSlice) :
    runSlices d l ++ restSlices d l = l := by
  rw [runSlices, restSlices]
  exact List.takeWhile_append_dropWhile _ _

/-- Every slice of the consumed run is dated `d`. -/
theorem date_of_mem_runSlices {d : ℤ} {l : List ConciseRecordSlice}
    {s : ConciseRecordSlice} (h : s ∈ runSlices d l) : s.date = d := by
  have := List.mem_takeWhile_imp h
  simpa using this

/-- The rest of a ledger is still date-sorted. -/
theorem restSlices_sorted {d : ℤ} {l : List ConciseRecordSlice}
    (hs : DateSorted l) : DateSorted (restSlices d l) :=
  List.Pairwise.sublist (List.dropWhile_sublist _) hs

/-- After consuming the run dated `d` from a sorted ledger bounded below
by `d`, every remaining slice is dated strictly after `d`. -/
theorem restSlices_lower {d : ℤ} : ∀ {l : List ConciseRecordSlice},
    DateSorted l → (∀ s ∈ l, d ≤ s.date) →
    ∀ s ∈ restSlices d l, d < s.date := by
  intro l
  induction l with
  | nil => intro _ _ s hs; cases hs
  | cons x t ih =>
    intro hs hlow s hmem
    have hp := List.pairwise_cons.mp hs
    by_cases hx : x.date = d
    · rw [show restSlices d (x :: t) = restSlices d t by
        simp [restSlices, List.dropWhile_cons, hx]] at hmem
      exact ih hp.2 (fun s hs' => hlow s (List.mem_cons_of_mem _ hs')) s hmem
    · rw [show restSlices d (x :: t) = x :: t by
        simp [restSlices, List.dropWhile_cons, hx]] at hmem
      have hxd : d < x.date :=
        lt_of_le_of_ne (hlow x (List.mem_cons_self _ _)) (Ne.symm hx)
      rcases List.mem_cons.mp hmem with rfl | hmem'
      · exact hxd
      · exact lt_of_lt_of_le hxd (hp.1 s hmem')

/-- On a sorted ledger bounded below by `d`, the entries dated `d` are
exactly the leading run. -/
theorem entriesAt_eq_runSlices {d : ℤ} : ∀ {l : List ConciseRecordSlice},
    DateSorted l → (∀ s ∈ l, d ≤ s.date) → entriesAt d l = runSlices d l := by
  intro l
  induction l with
  | nil => intro _ _; rfl
  | cons x t ih =>
    intro hs hlow
    have hp := List.pairwise_cons.mp hs
    by_cases hx : x.date = d
    · rw [show entriesAt d (x :: t) = x :: entriesAt d t by
        simp [entriesAt, List.filter_cons, hx]]
      rw [show runSlices d (x :: t) = x :: runSlices d t by
        simp [runSlices, List.takeWhile_cons, hx]]
      rw [ih hp.2 (fun s hs' => hlow s (List.mem_cons_of_mem _ hs'))]
    · have hxd : d < x.date :=
        lt_of_le_of_ne (hlow x (List.mem_cons_self _ _)) (Ne.symm hx)
      rw [show runSlices d (x :: t) = [] by
        simp [runSlices, List.takeWhile_cons, hx]]
      rw [show entriesAt d (x :: t) = entriesAt d t by
        simp [entriesAt, List.filter_cons, hx]]
      simp only [entriesAt, List.filter_eq_nil_iff]
      intro s hmem
      have : d < s.date := lt_of_lt_of_le hxd (hp.1 s hmem)
      simp
      omega

/-- For a date other than the consumed one, the entries of the rest are
the entries of the whole ledger. -/
theorem entriesAt_restSlices {d d' : ℤ} (l : List ConciseRecordSlice)
    (hne : d' ≠ d) : entriesAt d' (restSlices d l) = entriesAt d' l := by
  conv_rhs => rw [← runSlices_append_restSlices d l]
  rw [show entriesAt d' (runSlices d l ++ restSlices d l) =
    entriesAt d' (runSlices d l) ++ entriesAt d' (restSlices d l) by
    rw [entriesAt, entriesAt, entriesAt]
    exact List.filter_append _ _]
  rw [show entriesAt d' (runSlices d l) = [] by
    simp only [entriesAt, List.filter_eq_nil_iff]
    intro s hmem
    have := date_of_mem_runSlices hmem
    simp
    omega]
  rfl

/-- `hasEntryOn` in terms of an existential. -/
theorem hasEntryOn_iff {l : List ConciseRecordSlice} {d : ℤ} :
    hasEntryOn l d = true ↔ ∃ s ∈ l, s.date = d := by
  simp [hasEntryOn, List.any_eq_true]

/-- `hasEntryOn` (at another date) is unchanged by consuming a run. -/
theorem hasEntryOn_restSlices {d d' : ℤ} (l : List ConciseRecordSlice)
    (hne : d' ≠ d) : hasEntryOn (restSlices d l) d' = hasEntryOn l d' := by
  rw [Bool.eq_iff_iff, hasEntryOn_iff, hasEntryOn_iff]
  constructor
  · rintro ⟨s, hmem, rfl⟩
    exact ⟨s, (List.dropWhile_sublist _).mem hmem, rfl⟩
  · rintro ⟨s, hmem, rfl⟩
    rw [← runSlices_append_restSlices d l] at hmem
    rcases List.mem_append.mp hmem with hrun | hrest
    · exact absurd (date_of_mem_runSlices hrun) hne
    · exact ⟨s, hrest, rfl⟩

/-- On a sorted, `d`-bounded ledger the loop's `status` flag agrees with
"has an entry dated `d`". -/
theorem runStatus_eq_hasEntryOn {d : ℤ} {l : List ConciseRecordSlice}
    (hs : DateSorted l) (hlow : ∀ s ∈ l, d ≤ s.date) :
    runStatus d l = hasEntryOn l d := by
  rw [Bool.eq_iff_iff, hasEntryOn_iff]
  rw [show runStatus d l = !(entriesAt d l).isEmpty by
    rw [runStatus, entriesAt_eq_runSlices hs hlow]]
  constructor
  · intro h
    rcases hne : entriesAt d l with _ | ⟨s, t⟩
    · rw [hne] at h; simp at h
    · have : s ∈ entriesAt d l := by rw [hne]; exact List.mem_cons_self _ _
      have hmem := List.mem_of_mem_filter this
      have hdate : s.date = d := by
        have := List.of_mem_filter this
        simpa using this
      exact ⟨s, hmem, hdate⟩
  · rintro ⟨s, hmem, hd⟩
    have hsmem : s ∈ entriesAt d l := by
      rw [entriesAt, List.mem_filter]
      exact ⟨hmem, by simp [hd]⟩
    rcases hne : entriesAt d l with _ | ⟨y, t⟩
    · rw [hne] at hsmem; cases hsmem
    · simp [hne]

/-- The loop's per-ledger investment sum agrees with the date-filtered
sum on a sorted, bounded ledger. -/
theorem runInv_eq_sumInvAt {d : ℤ} {l : List ConciseRecordSlice}
    (hs : DateSorted l) (hlow : ∀ s ∈ l, d ≤ s.date) :
    runInv d l = sumInvAt d l := by
  rw [runInv, sumInvAt, entriesAt_eq_runSlices hs hlow]

/-- The loop's collected comments agree with the date-filtered comments
on a sorted, bounded ledger. -/
theorem runComments_eq_commentsAt {d : ℤ} {l : List ConciseRecordSlice}
    (hs : DateSorted l) (hlow : ∀ s ∈ l, d ≤ s.date) :
    runComments d l = commentsAt d l := by
  rw [runComments, commentsAt, entriesAt_eq_runSlices hs hlow]

/-- The merge date bounds every slice of both (sorted) ledgers. -/
theorem mergeDate_lower {l1 l2 : List ConciseRecordSlice}
    (h1 : DateSorted l1) (h2 : DateSorted l2) :
    (∀ s ∈ l1, mergeDate l1 l2 ≤ s.date) ∧
    (∀ s ∈ l2, mergeDate l1 l2 ≤ s.date) := by
  rcases l1 with _ | ⟨x, t1⟩ <;> rcases l2 with _ | ⟨y, t2⟩
  · exact ⟨fun s hs => absurd hs (List.not_mem_nil s),
      fun s hs => absurd hs (List.not_mem_nil s)⟩
  · refine ⟨fun s hs => absurd hs (List.not_mem_nil s), fun s hs => ?_⟩
    rcases List.mem_cons.mp hs with rfl | hmem
    · exact le_refl _
    · exact (List.pairwise_cons.mp h2).1 s hmem
  · refine ⟨fun s hs => ?_, fun s hs => absurd hs (List.not_mem_nil s)⟩
    rcases List.mem_cons.mp hs with rfl | hmem
    · exact le_refl _
    · exact (List.pairwise_cons.mp h1).1 s hmem
  · constructor
    · intro s hs
      rcases List.mem_cons.mp hs with rfl | hmem
      · exact min_le_left _ _
      · exact le_trans (min_le_left _ _) ((List.pairwise_cons.mp h1).1 s hmem)
    · intro s hs
      rcases List.mem_cons.mp hs with rfl | hmem
      · exact min_le_right _ _
      · exact le_trans (min_le_right _ _) ((List.pairwise_cons.mp h2).1 s hmem)

/-- The merge date is realised by an entry of one of the ledgers. -/
theorem mergeDate_hasEntry {l1 l2 : List ConciseRecordSlice}
    (hE : ¬(l1 = [] ∧ l2 = [])) :
    (hasEntryOn l1 (mergeDate l1 l2) || hasEntryOn l2 (mergeDate l1 l2)) =
      true := by
  rcases l1 with _ | ⟨x, t1⟩ <;> rcases l2 with _ | ⟨y, t2⟩
  · exact absurd ⟨rfl, rfl⟩ hE
  · simp only [Bool.or_eq_true, hasEntryOn_iff]
    exact Or.inr ⟨y, List.mem_cons_self _ _, rfl⟩
  · simp only [Bool.or_eq_true, hasEntryOn_iff]
    exact Or.inl ⟨x, List.mem_cons_self _ _, rfl⟩
  · simp only [Bool.or_eq_true, hasEntryOn_iff]
    rcases min_cases x.date y.date with ⟨heq, _⟩ | ⟨heq, _⟩
    · exact Or.inl ⟨x, List.mem_cons_self _ _, by rw [mergeDate, heq]⟩
    · exact Or.inr ⟨y, List.mem_cons_self _ _, by rw [mergeDate, heq]⟩

/-- The next round's merge date lies strictly after the current one. -/
theorem mergeDate_next_gt {d : ℤ} {l1 l2 : List ConciseRecordSlice}
    (hb1 : ∀ s ∈ l1, d < s.date) (hb2 : ∀ s ∈ l2, d < s.date)
    (hE : ¬(l1 = [] ∧ l2 = [])) : d < mergeDate l1 l2 := by
  rcases l1 with _ | ⟨x, t1⟩ <;> rcases l2 with _ | ⟨y, t2⟩
  · exact absurd ⟨rfl, rfl⟩ hE
  · exact hb2 y (List.mem_cons_self _ _)
  · exact hb1 x (List.mem_cons_self _ _)
  · exact lt_min (hb1 x (List.mem_cons_self _ _))
      (hb2 y (List.mem_cons_self _ _))

/-- Investments at another date are unchanged by consuming a run. -/
theorem sumInvAt_restSlices {d d' : ℤ} (l : List ConciseRecordSlice)
    (hne : d' ≠ d) : sumInvAt d' (restSlices d l) = sumInvAt d' l := by
  rw [sumInvAt, sumInvAt, entriesAt_restSlices l hne]

/-- The spec comment at another date is unchanged by consuming runs. -/
theorem mergeCommentSpec_restSlices {d d' : ℤ}
    (l1 l2 : List ConciseRecordSlice) (hne : d' ≠ d) :
    mergeCommentSpec d' (restSlices d l1) (restSlices d l2) =
      mergeCommentSpec d' l1 l2 := by
  rw [mergeCommentSpec, mergeCommentSpec, commentsAt, commentsAt,
    commentsAt, commentsAt, entriesAt_restSlices l1 hne,
    entriesAt_restSlices l2 hne, hasEntryOn_restSlices l1 hne,
    hasEntryOn_restSlices l2 hne]

/-- The merge loop, on sorted inputs and a compatible accumulator,
appends exactly one entry per distinct source date, in strictly
ascending order, with the sources' summed same-day investments and the
spec's comment (tagging `"estimated"` exactly when not both sources have
the date). -/
theorem mergeAux_master : ∀ (n : ℕ) (l1 l2 : List ConciseRecordSlice)
    (pv1 pv2 : ℚ) (acc : ConciseRecord),
    l1.length + l2.length ≤ n →
    DateSorted l1 → DateSorted l2 →
    (∀ s ∈ acc.records, ¬(l1 = [] ∧ l2 = []) → s.date < mergeDate l1 l2) →
    ∃ new, mergeRecordsAux l1 l2 pv1 pv2 acc =
        Except.ok { acc with records := acc.records ++ new } ∧
      (new.map ConciseRecordSlice.date).Chain' (· < ·) ∧
      (∀ e ∈ new, ¬(l1 = [] ∧ l2 = []) ∧ mergeDate l1 l2 ≤ e.date) ∧
      (∀ e ∈ new, (hasEntryOn l1 e.date || hasEntryOn l2 e.date) = true) ∧
      (∀ d', (hasEntryOn l1 d' || hasEntryOn l2 d') = true →
        ∃ e ∈ new, e.date = d') ∧
      (∀ e ∈ new, e.investment = sumInvAt e.date l1 + sumInvAt e.date l2) ∧
      (∀ e ∈ new, e.comment = mergeCommentSpec e.date l1 l2) := by
  intro n
  induction n with
  | zero =>
    intro l1 l2 pv1 pv2 acc hlen h1 h2 hacc
    have hl1 : l1 = [] := List.length_eq_zero.mp (by omega)
    have hl2 : l2 = [] := List.length_eq_zero.mp (by omega)
    subst hl1; subst hl2
    refine ⟨[], ?_, by simp, by simp, by simp, ?_, by simp, by simp⟩
    · rw [mergeRecordsAux, dif_pos ⟨rfl, rfl⟩]
      simp
    · intro d' hd'
      simp [hasEntryOn] at hd'
  | succ n ih =>
    intro l1 l2 pv1 pv2 acc hlen h1 h2 hacc
    by_cases hE : l1 = [] ∧ l2 = []
    · obtain ⟨hl1, hl2⟩ := hE
      subst hl1; subst hl2
      refine ⟨[], ?_, by simp, by simp, by simp, ?_, by simp, by simp⟩
      · rw [mergeRecordsAux, dif_pos ⟨rfl, rfl⟩]
        simp
      · intro d' hd'
        simp [hasEntryOn] at hd'
    · have hlow1 := (mergeDate_lower h1 h2).1
      have hlow2 := (mergeDate_lower h1 h2).2
      have hs1' : DateSorted (restSlices (mergeDate l1 l2) l1) :=
        restSlices_sorted h1
      have hs2' : DateSorted (restSlices (mergeDate l1 l2) l2) :=
        restSlices_sorted h2
      have hb1 := restSlices_lower h1 hlow1
      have hb2 := restSlices_lower h2 hlow2
      have hguard : ¬(acc.records ≠ [] ∧ mergeDate l1 l2 <
          ((acc.records.getLast?).map ConciseRecordSlice.date).getD 0) := by
        rintro ⟨hne, hlt⟩
        rw [List.getLast?_eq_getLast _ hne] at hlt
        simp only [Option.map_some', Option.getD_some] at hlt
        exact absurd hlt (not_lt.mpr (le_of_lt
          (hacc _ (List.getLast_mem hne) hE)))
      have happ : ∃ eNew : ConciseRecordSlice,
          eNew.date = mergeDate l1 l2 ∧
          eNew.investment = runInv (mergeDate l1 l2) l1 +
            runInv (mergeDate l1 l2) l2 ∧
          eNew.comment = String.intercalate "; "
            (runComments (mergeDate l1 l2) l1 ++
             runComments (mergeDate l1 l2) l2 ++
            (if runStatus (mergeDate l1 l2) l1 &&
                runStatus (mergeDate l1 l2) l2
             then [] else ["estimated"])) ∧
          ConciseRecord.append acc (mergeDate l1 l2)
            (runInv (mergeDate l1 l2) l1 + runInv (mergeDate l1 l2) l2)
            (runPV (mergeDate l1 l2) l1 pv1 + runPV (mergeDate l1 l2) l2 pv2)
            (String.intercalate "; "
              (runComments (mergeDate l1 l2) l1 ++
               runComments (mergeDate l1 l2) l2 ++
              (if runStatus (mergeDate l1 l2) l1 &&
                  runStatus (mergeDate l1 l2) l2
               then [] else ["estimated"]))) =
            Except.ok { acc with records := acc.records ++ [eNew] } := by
        rw [ConciseRecord.append, if_neg hguard]
        exact ⟨_, rfl, rfl, rfl, rfl⟩
      obtain ⟨eNew, heD, heI, heC, happ⟩ := happ
      have hmeasure := merge_measure_lt l1 l2 hE
      have hacc2 : ∀ s ∈ (acc.records ++ [eNew]),
          ¬(restSlices (mergeDate l1 l2) l1 = [] ∧
            restSlices (mergeDate l1 l2) l2 = []) →
          s.date < mergeDate (restSlices (mergeDate l1 l2) l1)
            (restSlices (mergeDate l1 l2) l2) := by
        intro s hs hE'
        have hnext := mergeDate_next_gt hb1 hb2 hE'
        rcases List.mem_append.mp hs with hmem | hmem
        · exact lt_trans (hacc s hmem hE) hnext
        · rw [List.mem_singleton.mp hmem, heD]
          exact hnext
      obtain ⟨new', hres, hchain', hlb', hfwd', hcompl', hinv', hcom'⟩ :=
        ih (restSlices (mergeDate l1 l2) l1)
          (restSlices (mergeDate l1 l2) l2)
          (runPV (mergeDate l1 l2) l1 pv1) (runPV (mergeDate l1 l2) l2 pv2)
          { acc with records := acc.records ++ [eNew] }
          (by omega) hs1' hs2' hacc2
      have hnextgt : ∀ e ∈ new', mergeDate l1 l2 < e.date := by
        intro e he
        exact lt_of_lt_of_le
          (mergeDate_next_gt hb1 hb2 (hlb' e he).1) (hlb' e he).2
      refine ⟨eNew :: new', ?_, ?_, ?_, ?_, ?_, ?_, ?_⟩
      · rw [mergeRecordsAux, dif_neg hE, happ]
        dsimp only
        rw [hres]
        have hrecs : (acc.records ++ [eNew]) ++ new' =
            acc.records ++ eNew :: new' := by simp
        rw [hrecs]
      · rw [List.map_cons]
        rw [List.chain'_cons']
        constructor
        · intro y hy
          rw [List.head?_map] at hy
          rcases hh : new'.head? with _ | e
          · rw [hh] at hy; cases hy
          · rw [hh] at hy
            simp only [Option.map_some', Option.mem_def,
              Option.some.injEq] at hy
            subst hy
            rw [heD]
            exact hnextgt e (List.mem_of_mem_head? hh)
        · exact hchain'
      · intro e he
        rcases List.mem_cons.mp he with rfl | hmem
        · exact ⟨hE, le_of_eq heD.symm⟩
        · exact ⟨hE, le_of_lt (hnextgt e hmem)⟩
      · intro e he
        rcases List.mem_cons.mp he with rfl | hmem
        · rw [heD]
          exact mergeDate_hasEntry hE
        · have hne : e.date ≠ mergeDate l1 l2 :=
            ne_of_gt (hnextgt e hmem)
          rw [← hasEntryOn_restSlices l1 hne, ← hasEntryOn_restSlices l2 hne]
          exact hfwd' e hmem
      · intro d' hd'
        by_cases hdd : d' = mergeDate l1 l2
        · exact ⟨eNew, List.mem_cons_self _ _, by rw [heD, hdd]⟩
        · have hd'' : (hasEntryOn (restSlices (mergeDate l1 l2) l1) d' ||
              hasEntryOn (restSlices (mergeDate l1 l2) l2) d') = true := by
            rw [hasEntryOn_restSlices l1 hdd, hasEntryOn_restSlices l2 hdd]
            exact hd'
          obtain ⟨e, hmem, hdate⟩ := hcompl' d' hd''
          exact ⟨e, List.mem_cons_of_mem _ hmem, hdate⟩
      · intro e he
        rcases List.mem_cons.mp he with rfl | hmem
        · rw [heD, heI, runInv_eq_sumInvAt h1 hlow1,
            runInv_eq_sumInvAt h2 hlow2]
        · have hne : e.date ≠ mergeDate l1 l2 :=
            ne_of_gt (hnextgt e hmem)
          rw [hinv' e hmem, sumInvAt_restSlices l1 hne,
            sumInvAt_restSlices l2 hne]
      · intro e he
        rcases List.mem_cons.mp he with rfl | hmem
        · rw [heD, heC, runComments_eq_commentsAt h1 hlow1,
            runComments_eq_commentsAt h2 hlow2,
            runStatus_eq_hasEntryOn h1 hlow1,
            runStatus_eq_hasEntryOn h2 hlow2]
          rfl
        · have hne : e.date ≠ mergeDate l1 l2 :=
            ne_of_gt (hnextgt e hmem)
          rw [hcom' e hmem, mergeCommentSpec_restSlices l1 l2 hne]

/-- C6: `merge_records` appends the literal tag `"estimated"` to a merged
entry's comment exactly when not every source ledger has an entry dated
that day (first conjunct: each merged entry's comment is the sources'
same-day comments joined with `"; "`, plus the tag exactly under that
condition); consequently merging a ledger with itself produces one entry
per distinct date, with twice the same-day investment, and no entry ever
receives the tag. -/
theorem c6_merge_estimated_tag (r1 r2 r : ConciseRecord)
    (h1 : DateSorted r1.records) (h2 : DateSorted r2.records)
    (h : DateSorted r.records) :
    (∃ m, merge_records r1 r2 = Except.ok m ∧
      ∀ e ∈ m.records, e.comment = mergeCommentSpec e.date r1.records
        r2.records) ∧
    (∃ m, merge_records r r = Except.ok m ∧
      (m.records.map ConciseRecordSlice.date).Chain' (· < ·) ∧
      (∀ d, (∃ e ∈ m.records, e.date = d) ↔ hasEntryOn r.records d = true) ∧
      (∀ e ∈ m.records, e.investment = 2 * sumInvAt e.date r.records) ∧
      (∀ e ∈ m.records, e.comment = String.intercalate "; "
        (commentsAt e.date r.records ++ commentsAt e.date r.records))) := by
  constructor
  · obtain ⟨new, hok, _, _, _, _, _, hcom⟩ :=
      mergeAux_master (r1.records.length + r2.records.length) r1.records
        r2.records 0 0 (ConciseRecord.new "" "") le_rfl h1 h2
        (by intro s hs; simp [ConciseRecord.new] at hs)
    refine ⟨_, by rw [merge_records]; exact hok, ?_⟩
    intro e he
    simp only [ConciseRecord.new, List.nil_append] at he
    exact hcom e he
  · obtain ⟨new, hok, hchain, _, hfwd, hcompl, hinv, hcom⟩ :=
      mergeAux_master (r.records.length + r.records.length) r.records
        r.records 0 0 (ConciseRecord.new "" "") le_rfl h h
        (by intro s hs; simp [ConciseRecord.new] at hs)
    refine ⟨_, by rw [merge_records]; exact hok, ?_, ?_, ?_, ?_⟩
    · simpa [ConciseRecord.new] using hchain
    · intro d
      constructor
      · rintro ⟨e, he, rfl⟩
        simp only [ConciseRecord.new, List.nil_append] at he
        have := hfwd e he
        simpa using this
      · intro hd
        obtain ⟨e, he, hdate⟩ := hcompl d (by simp [hd])
        exact ⟨e, by simpa [ConciseRecord.new] using he, hdate⟩
    · intro e he
      simp only [ConciseRecord.new, List.nil_append] at he
      rw [hinv e he]
      ring
    · intro e he
      simp only [ConciseRecord.new, List.nil_append] at he
      rw [hcom e he, mergeCommentSpec]
      have hhas : hasEntryOn r.records e.date = true := by
        have := hfwd e he
        simpa using this
      rw [hhas]
      simp

/-- Witness for C6: merging a concrete one-entry ledger with itself
doubles the investment of its (single-date) entry. -/
theorem c6_merge_estimated_tag_witness :
    ∃ m, merge_records ⟨"n", "c", "", [⟨1, 2, 3, "a", 2, 1⟩]⟩
        ⟨"n", "c", "", [⟨1, 2, 3, "a", 2, 1⟩]⟩ = Except.ok m ∧
      ∀ e ∈ m.records, e.investment =
        2 * sumInvAt e.date [⟨1, 2, 3, "a", 2, 1⟩] := by
  obtain ⟨m, hok, _, _, hinv, _⟩ :=
    (c6_merge_estimated_tag ⟨"n", "c", "", [⟨1, 2, 3, "a", 2, 1⟩]⟩
      ⟨"n", "c", "", [⟨1, 2, 3, "a", 2, 1⟩]⟩
      ⟨"n", "c", "", [⟨1, 2, 3, "a", 2, 1⟩]⟩
      (by simp [DateSorted]) (by simp [DateSorted])
      (by simp [DateSorted])).2
  exact ⟨m, hok, hinv⟩

/-! ### Lemmas for the logging/recording equivalence (C1) -/

/-- On a non-decreasing calendar, the day at a later index is no
earlier. -/
theorem dates_getD_mono {l : List ℤ} (hs : l.Pairwise (· ≤ ·)) {i j : ℕ}
    (hij : i ≤ j) (hj : j < l.length) : l.getD i 0 ≤ l.getD j 0 := by
  rcases eq_or_lt_of_le hij with rfl | hlt
  · exact le_refl _
  · have hi : i < l.length := lt_trans hlt hj
    rw [List.getD_eq_getElem?_getD, List.getD_eq_getElem?_getD]
    rw [List.getElem?_eq_getElem hi, List.getElem?_eq_getElem hj]
    exact List.pairwise_iff_get.mp hs ⟨i, hi⟩ ⟨j, hj⟩ hlt

/-- Sequencing a successful `Except` computation reduces to its
continuation. -/
theorem exceptBind_ok {epsilon alpha beta : Type} (a : alpha)
    (f : alpha → Except epsilon beta) :
    (Except.ok (ε := epsilon) a >>= f) = f a := rfl

/-- The per-fund ledger appends in `flush` succeed and keep every entry
dated no later than `today`, provided the incoming ledgers already
satisfy that bound. -/
theorem appendFundRecords_ok (trans : Transaction) (index : ℕ) (today : ℤ)
    (invs bufShares : List ℚ) (comms : List String) :
    ∀ (frs : List DetailedRecord) (i0 : ℕ),
    (∀ fr ∈ frs, ∀ s ∈ fr.records, s.date ≤ today) →
    ∃ frs', TransactionIterator.appendFundRecords trans index today invs
        bufShares comms i0 frs = Except.ok frs' ∧
      ∀ fr ∈ frs', ∀ s ∈ fr.records, s.date ≤ today := by
  intro frs
  induction frs with
  | nil => exact fun i0 _ => ⟨[], rfl, by simp⟩
  | cons r rs ih =>
    intro i0 hgood
    have hgr := hgood r (List.mem_cons_self _ _)
    have hguard : ¬(r.records ≠ [] ∧ today <
        ((r.records.getLast?).map DetailedRecordSlice.date).getD 0) := by
      rintro ⟨hne, hlt⟩
      rw [List.getLast?_eq_getLast _ hne] at hlt
      simp only [Option.map_some', Option.getD_some] at hlt
      exact absurd hlt (not_lt.mpr (hgr _ (List.getLast_mem hne)))
    have happ : ∃ r', DetailedRecord.append r today (invs.getD i0 0)
        (trans.nav index i0) (bufShares.getD i0 0) (comms.getD i0 "") =
        Except.ok r' ∧ ∀ s ∈ r'.records, s.date ≤ today := by
      rw [DetailedRecord.append, if_neg hguard]
      refine ⟨_, rfl, ?_⟩
      intro s hs
      rcases List.mem_append.mp hs with hmem | hmem
      · exact hgr s hmem
      · rw [List.mem_singleton.mp hmem]
    obtain ⟨r', happEq, hr'⟩ := happ
    obtain ⟨rs', hok, hgood'⟩ := ih (i0 + 1)
      (fun fr hf => hgood fr (List.mem_cons_of_mem _ hf))
    refine ⟨r' :: rs', ?_, ?_⟩
    · rw [TransactionIterator.appendFundRecords, happEq]
      rw [exceptBind_ok]
      rw [hok]
      rfl
    · intro fr hf
      rcases List.mem_cons.mp hf with rfl | hmem
      · exact hr'
      · exact hgood' fr hmem

/-- `flush` succeeds under the ledger-date invariant and commits the
pending buffer into the status; the refreshed ledgers stay bounded by
the flushed day's date. -/
theorem flush_ok (trans : Transaction) (st : TransactionIterator)
    (hact : st.index < trans.ndays) (hrec : RecGood trans st) :
    ∃ st', TransactionIterator.flush trans st = Except.ok st' ∧
      st'.index = st.index ∧
      st'.iter_status.cash = st.iter_status.cash + st.iter_buffer.cash ∧
      st'.iter_status.shares = (st.iter_status.shares.zip
        st.iter_buffer.shares).map (fun xy => xy.1 + xy.2) ∧
      st'.iter_buffer.cash = 0 ∧
      st'.iter_buffer.shares = st.iter_buffer.shares.map (fun _ => 0) ∧
      (∀ rec', st'.iter_record = some rec' →
        (∀ s ∈ rec'.cash_record.records,
          s.date ≤ trans.date.getD st.index 0) ∧
        (∀ fr ∈ rec'.fund_records, ∀ s ∈ fr.records,
          s.date ≤ trans.date.getD st.index 0)) := by
  rcases hsr : st.iter_record with _ | rec
  · refine ⟨TransactionIterator.mk st.index st.iter_buffer.reset
      (IterStatus.mk (st.iter_status.cash + st.iter_buffer.cash)
        ((st.iter_status.shares.zip st.iter_buffer.shares).map
          (fun xy => xy.1 + xy.2)))
      st.iter_log none, ?_, rfl, rfl, rfl, rfl, rfl, ?_⟩
    · rw [TransactionIterator.flush, hsr]
      rfl
    · intro rec' h
      cases h
  · obtain ⟨hcash, hfund⟩ := hrec rec hsr hact
    have hguard : ¬(rec.cash_record.records ≠ [] ∧
        trans.date.getD st.index 0 <
        ((rec.cash_record.records.getLast?).map
          ConciseRecordSlice.date).getD 0) := by
      rintro ⟨hne, hlt⟩
      rw [List.getLast?_eq_getLast _ hne] at hlt
      simp only [Option.map_some', Option.getD_some] at hlt
      exact absurd hlt (not_lt.mpr (hcash _ (List.getLast_mem hne)))
    have happ : ∃ cr', ConciseRecord.append rec.cash_record
        (trans.date.getD st.index 0) st.iter_buffer.cash
        (st.iter_status.cash + st.iter_buffer.cash)
        rec.cash_comment_buffer = Except.ok cr' ∧
        ∀ s ∈ cr'.records, s.date ≤ trans.date.getD st.index 0 := by
      rw [ConciseRecord.append, if_neg hguard]
      refine ⟨_, rfl, ?_⟩
      intro s hs
      rcases List.mem_append.mp hs with hmem | hmem
      · exact hcash s hmem
      · rw [List.mem_singleton.mp hmem]
    obtain ⟨cr', happEq, hcr'⟩ := happ
    obtain ⟨frs', hfok, hfrs'⟩ := appendFundRecords_ok trans st.index
      (trans.date.getD st.index 0) rec.investments st.iter_buffer.shares
      rec.fund_comment_buffer rec.fund_records 0 hfund
    refine ⟨TransactionIterator.mk st.index st.iter_buffer.reset
      (IterStatus.mk (st.iter_status.cash + st.iter_buffer.cash)
        ((st.iter_status.shares.zip st.iter_buffer.shares).map
          (fun xy => xy.1 + xy.2)))
      st.iter_log (some (IterRecord.reset_buffer (IterRecord.mk
        rec.investments rec.cash_comment_buffer rec.fund_comment_buffer
        cr' frs'))), ?_, rfl, rfl, rfl, rfl, rfl, ?_⟩
    · rw [TransactionIterator.flush, hsr]
      dsimp only
      rw [happEq, exceptBind_ok, hfok, exceptBind_ok]
      rfl
    · intro rec' h
      simp only [Option.some.injEq] at h
      subst h
      constructor
      · intro s hs
        exact hcr' s hs
      · intro fr hf s hs
        exact hfrs' fr hf s hs

/-- `flush_and_step` never panics under the invariants: it leaves a
finished iterator untouched, and on an active one commits the buffer and
moves the cursor, re-establishing the ledger-date invariant. -/
theorem flush_and_step_ok (trans : Transaction) (st : TransactionIterator)
    (n : ℕ) (hs : trans.date.Pairwise (· ≤ ·))
    (hle : st.index ≤ trans.ndays) (hrec : RecGood trans st) :
    ∃ st' b, TransactionIterator.flush_and_step trans st n =
        Except.ok (st', b) ∧ RecGood trans st' ∧
      st'.index ≤ trans.ndays ∧
      (st.index = trans.ndays → st' = st) ∧
      (st.index < trans.ndays →
        st'.index = min (st.index + n) trans.ndays ∧
        st'.iter_status.cash = st.iter_status.cash + st.iter_buffer.cash ∧
        st'.iter_status.shares = (st.iter_status.shares.zip
          st.iter_buffer.shares).map (fun xy => xy.1 + xy.2) ∧
        st'.iter_buffer.cash = 0 ∧
        st'.iter_buffer.shares = st.iter_buffer.shares.map (fun _ => 0)) := by
  by_cases hfin : st.index = trans.ndays
  · have hb : TransactionIterator.is_finished trans st = true := by
      simp [TransactionIterator.is_finished, hfin]
    refine ⟨st, false, ?_, hrec, hle, fun _ => rfl,
      fun h => absurd hfin (by omega)⟩
    rw [TransactionIterator.flush_and_step]
    rw [if_pos hb]
  · have hact : st.index < trans.ndays := lt_of_le_of_ne hle hfin
    have hb : TransactionIterator.is_finished trans st = false := by
      simp [TransactionIterator.is_finished]
      omega
    obtain ⟨st1, hflush, hidx1, hsc, hss, hbc, hbs, hrec1⟩ :=
      flush_ok trans st hact hrec
    refine ⟨TransactionIterator.step trans st1 n,
      !TransactionIterator.is_finished trans
        (TransactionIterator.step trans st1 n), ?_, ?_, ?_, ?_, ?_⟩
    · rw [TransactionIterator.flush_and_step,
        if_neg (by simp [hb] : ¬TransactionIterator.is_finished trans st = true)]
      rw [hflush]
      rfl
    · intro rec' hrec' hlt'
      have hrecEq : (TransactionIterator.step trans st1 n).iter_record =
          st1.iter_record := rfl
      rw [hrecEq] at hrec'
      have hidxEq : (TransactionIterator.step trans st1 n).index =
          min (st1.index + n) trans.ndays := rfl
      rw [hidxEq] at hlt' ⊢
      obtain ⟨hcb, hfb⟩ := hrec1 rec' hrec'
      have hmono : trans.date.getD st.index 0 ≤
          trans.date.getD (min (st1.index + n) trans.ndays) 0 := by
        apply dates_getD_mono hs
        · rw [hidx1]
          exact le_min (Nat.le_add_right _ _) (le_of_lt hact)
        · exact hlt'
      exact ⟨fun s hsm => le_trans (hcb s hsm) hmono,
        fun fr hfm s hsm => le_trans (hfb fr hfm s hsm) hmono⟩
    · show min (st1.index + n) trans.ndays ≤ trans.ndays
      exact min_le_right _ _
    · intro h
      exact absurd h hfin
    · intro _
      refine ⟨?_, hsc, hss, hbc, hbs⟩
      show min (st1.index + n) trans.ndays = min (st.index + n) trans.ndays
      rw [hidx1]

/-- Sequencing a failed `Except` computation stays failed. -/
theorem exceptBind_err {epsilon alpha beta : Type} (e : epsilon)
    (f : alpha → Except epsilon beta) :
    (Except.error (α := alpha) e >>= f) = Except.error e := rfl

/-- The ledger-date invariant only reads the cursor and the ledgers, so
it transfers along `recLedgersEq`. -/
theorem recGood_of_ledgersEq {trans : Transaction}
    {a a' : TransactionIterator}
    (h : recLedgersEq a'.iter_record a.iter_record)
    (hidx : a'.index = a.index) (hg : RecGood trans a) :
    RecGood trans a' := by
  intro rec' hr' hlt'
  rw [hidx] at hlt' ⊢
  rcases hr : a.iter_record with _ | rec
  · rw [hr', hr] at h
    exact absurd h (by simp [recLedgersEq])
  · rw [hr', hr] at h
    obtain ⟨hcr, hfr⟩ := h
    obtain ⟨h1, h2⟩ := hg rec hr hlt'
    exact ⟨by rw [hcr]; exact h1, by rw [hfr]; exact h2⟩

/-- Shape of a successful `inflow` on an active iterator. -/
theorem inflow_shape (trans : Transaction) (st : TransactionIterator)
    (amt : ℚ) (hact : st.index < trans.ndays) :
    ∃ st', TransactionIterator.inflow trans st amt = Except.ok st' ∧
      st'.index = st.index ∧
      st'.iter_buffer.cash = st.iter_buffer.cash + amt ∧
      st'.iter_buffer.shares = st.iter_buffer.shares ∧
      st'.iter_status = st.iter_status ∧
      recLedgersEq st'.iter_record st.iter_record := by
  have hb : TransactionIterator.is_finished trans st = false := by
    simp [TransactionIterator.is_finished]
    omega
  rw [TransactionIterator.inflow, if_neg (by simp [hb])]
  refine ⟨_, rfl, rfl, rfl, rfl, rfl, ?_⟩
  rcases st.iter_record with _ | rec
  · exact trivial
  · exact ⟨rfl, rfl⟩

/-- Shape of a successful `buy` on an active iterator: the share delta is
priced at the current day's NAV row. -/
theorem buy_shape (trans : Transaction) (st : TransactionIterator)
    (f : ℕ) (iv fee : ℚ) (hact : st.index < trans.ndays) :
    ∃ st', TransactionIterator.buy trans st f iv fee = Except.ok st' ∧
      st'.index = st.index ∧
      st'.iter_buffer.cash = st.iter_buffer.cash - iv ∧
      st'.iter_buffer.shares = TransactionIterator.updAdd
        st.iter_buffer.shares f ((iv - fee) / trans.nav st.index f) ∧
      st'.iter_status = st.iter_status ∧
      recLedgersEq st'.iter_record st.iter_record := by
  have hb : TransactionIterator.is_finished trans st = false := by
    simp [TransactionIterator.is_finished]
    omega
  rw [TransactionIterator.buy, if_neg (by simp [hb])]
  refine ⟨_, rfl, rfl, rfl, rfl, rfl, ?_⟩
  rcases st.iter_record with _ | rec
  · exact trivial
  · exact ⟨rfl, rfl⟩

/-- Shape of a successful `sell` on an active iterator: the income is
priced at the current day's NAV row. -/
theorem sell_shape (trans : Transaction) (st : TransactionIterator)
    (f : ℕ) (sh fee : ℚ) (hact : st.index < trans.ndays) :
    ∃ st', TransactionIterator.sell trans st f sh fee = Except.ok st' ∧
      st'.index = st.index ∧
      st'.iter_buffer.cash = st.iter_buffer.cash +
        (sh * trans.nav st.index f - fee) ∧
      st'.iter_buffer.shares = TransactionIterator.updAdd
        st.iter_buffer.shares f (-sh) ∧
      st'.iter_status = st.iter_status ∧
      recLedgersEq st'.iter_record st.iter_record := by
  have hb : TransactionIterator.is_finished trans st = false := by
    simp [TransactionIterator.is_finished]
    omega
  rw [TransactionIterator.sell, if_neg (by simp [hb])]
  refine ⟨_, rfl, rfl, rfl, rfl, rfl, ?_⟩
  rcases st.iter_record with _ | rec
  · exact trivial
  · exact ⟨rfl, rfl⟩

/-- Shape of a successful `inflow_comment` on an active iterator. -/
theorem inflow_comment_shape (trans : Transaction)
    (st : TransactionIterator) (amt : ℚ) (c : String)
    (hact : st.index < trans.ndays) :
    ∃ st', TransactionIterator.inflow_comment trans st amt c =
        Except.ok st' ∧
      st'.index = st.index ∧
      st'.iter_buffer.cash = st.iter_buffer.cash + amt ∧
      st'.iter_buffer.shares = st.iter_buffer.shares ∧
      st'.iter_status = st.iter_status ∧
      recLedgersEq st'.iter_record st.iter_record := by
  have hb : TransactionIterator.is_finished trans st = false := by
    simp [TransactionIterator.is_finished]
    omega
  rw [TransactionIterator.inflow_comment, TransactionIterator.inflow,
    if_neg (by simp [hb]), exceptBind_ok]
  dsimp only
  rcases st.iter_record with _ | rec
  · exact ⟨_, rfl, rfl, rfl, rfl, rfl, trivial⟩
  · dsimp only
    by_cases hcb : rec.cash_comment_buffer ≠ ""
    · rw [if_pos hcb]
      exact ⟨_, rfl, rfl, rfl, rfl, rfl, rfl, rfl⟩
    · rw [if_neg hcb]
      exact ⟨_, rfl, rfl, rfl, rfl, rfl, rfl, rfl⟩

/-- Shape of a successful `buy_comment` on an active iterator. -/
theorem buy_comment_shape (trans : Transaction) (st : TransactionIterator)
    (f : ℕ) (iv fee : ℚ) (c : String) (hact : st.index < trans.ndays) :
    ∃ st', TransactionIterator.buy_comment trans st f iv fee c =
        Except.ok st' ∧
      st'.index = st.index ∧
      st'.iter_buffer.cash = st.iter_buffer.cash - iv ∧
      st'.iter_buffer.shares = TransactionIterator.updAdd
        st.iter_buffer.shares f ((iv - fee) / trans.nav st.index f) ∧
      st'.iter_status = st.iter_status ∧
      recLedgersEq st'.iter_record st.iter_record := by
  have hb : TransactionIterator.is_finished trans st = false := by
    simp [TransactionIterator.is_finished]
    omega
  rw [TransactionIterator.buy_comment, TransactionIterator.buy,
    if_neg (by simp [hb]), exceptBind_ok]
  dsimp only
  rcases st.iter_record with _ | rec
  · exact ⟨_, rfl, rfl, rfl, rfl, rfl, trivial⟩
  · dsimp only
    by_cases hcb : rec.fund_comment_buffer.getD f "" ≠ ""
    · rw [if_pos hcb]
      exact ⟨_, rfl, rfl, rfl, rfl, rfl, rfl, rfl⟩
    · rw [if_neg hcb]
      exact ⟨_, rfl, rfl, rfl, rfl, rfl, rfl, rfl⟩

/-- Shape of a successful `sell_comment` on an active iterator. -/
theorem sell_comment_shape (trans : Transaction)
    (st : TransactionIterator) (f : ℕ) (sh fee : ℚ) (c : String)
    (hact : st.index < trans.ndays) :
    ∃ st', TransactionIterator.sell_comment trans st f sh fee c =
        Except.ok st' ∧
      st'.index = st.index ∧
      st'.iter_buffer.cash = st.iter_buffer.cash +
        (sh * trans.nav st.index f - fee) ∧
      st'.iter_buffer.shares = TransactionIterator.updAdd
        st.iter_buffer.shares f (-sh) ∧
      st'.iter_status = st.iter_status ∧
      recLedgersEq st'.iter_record st.iter_record := by
  have hb : TransactionIterator.is_finished trans st = false := by
    simp [TransactionIterator.is_finished]
    omega
  rw [TransactionIterator.sell_comment, TransactionIterator.sell,
    if_neg (by simp [hb]), exceptBind_ok]
  dsimp only
  rcases st.iter_record with _ | rec
  · exact ⟨_, rfl, rfl, rfl, rfl, rfl, trivial⟩
  · dsimp only
    by_cases hcb : rec.fund_comment_buffer.getD f "" ≠ ""
    · rw [if_pos hcb]
      exact ⟨_, rfl, rfl, rfl, rfl, rfl, rfl, rfl⟩
    · rw [if_neg hcb]
      exact ⟨_, rfl, rfl, rfl, rfl, rfl, rfl, rfl⟩

/-- Mapping over a successful `Except` computation applies the
function. -/
theorem exceptMap_ok {epsilon alpha beta : Type} (f : alpha → beta)
    (x : alpha) :
    Except.map f (Except.ok (ε := epsilon) x) = Except.ok (f x) := rfl

/-- Lockstep for the advance primitive: two sim-equal states advanced by
the same day count stay sim-equal, and neither run panics. -/
theorem advance_lockstep (trans : Transaction) (n : ℕ)
    (a b : TransactionIterator) (hs : trans.date.Pairwise (· ≤ ·))
    (hga : RecGood trans a) (hgb : RecGood trans b)
    (hla : a.index ≤ trans.ndays) (hlb : b.index ≤ trans.ndays)
    (hab : SimEq a b) :
    ∃ a' b' ba bb,
      TransactionIterator.flush_and_step trans a n = Except.ok (a', ba) ∧
      TransactionIterator.flush_and_step trans b n = Except.ok (b', bb) ∧
      SimEq a' b' ∧ RecGood trans a' ∧ RecGood trans b' ∧
      a'.index ≤ trans.ndays ∧ b'.index ≤ trans.ndays := by
  obtain ⟨hidx, hbc, hbs, hsc, hss⟩ := hab
  obtain ⟨a', ba, hfa, hga', hla', hfina, hacta⟩ :=
    flush_and_step_ok trans a n hs hla hga
  obtain ⟨b', bb, hfb, hgb', hlb', hfinb, hactb⟩ :=
    flush_and_step_ok trans b n hs hlb hgb
  refine ⟨a', b', ba, bb, hfa, hfb, ?_, hga', hgb', hla', hlb'⟩
  by_cases hf : a.index = trans.ndays
  · rw [hfina hf, hfinb (hidx ▸ hf)]
    exact ⟨hidx, hbc, hbs, hsc, hss⟩
  · obtain ⟨hi1, hc1, hs1, hb1, hsh1⟩ := hacta (lt_of_le_of_ne hla hf)
    obtain ⟨hi2, hc2, hs2, hb2, hsh2⟩ := hactb
      (lt_of_le_of_ne hlb (fun hh => hf (by rw [hidx, hh])))
    exact ⟨by rw [hi1, hi2, hidx], by rw [hb1, hb2],
      by rw [hsh1, hsh2, hbs], by rw [hc1, hc2, hsc, hbc],
      by rw [hs1, hs2, hss, hbs]⟩

/-- Lockstep for one public call: with the invariants in place, the runs
with and without logging/recording take the same step on the simulation
state and never panic. -/
theorem runOp_lockstep (nmT : ℤ → Option ℕ → ℤ) (trans : Transaction)
    (hs : trans.date.Pairwise (· ≤ ·)) (op : Op)
    (a b : TransactionIterator)
    (hga : RecGood trans a) (hgb : RecGood trans b)
    (hla : a.index ≤ trans.ndays) (hlb : b.index ≤ trans.ndays)
    (hab : SimEq a b) :
    ∃ a' b', runOp nmT trans a op = Except.ok a' ∧
      runOp nmT trans b op = Except.ok b' ∧ SimEq a' b' ∧
      RecGood trans a' ∧ RecGood trans b' ∧
      a'.index ≤ trans.ndays ∧ b'.index ≤ trans.ndays := by
  obtain ⟨hidx, hbc, hbs, hsc, hss⟩ := hab
  have hbidx : b.index = a.index := hidx.symm
  cases op with
  | inflow amt =>
    by_cases hfin : a.index = trans.ndays
    · refine ⟨a, b, ?_, ?_, ⟨hidx, hbc, hbs, hsc, hss⟩, hga, hgb, hla, hlb⟩
      · rw [runOp, TransactionIterator.inflow,
          if_pos (by simp [TransactionIterator.is_finished, hfin])]
      · rw [runOp, TransactionIterator.inflow,
          if_pos (by simp [TransactionIterator.is_finished, hbidx, hfin])]
    · obtain ⟨a', haeq, hai, hac, hash, hast, halr⟩ :=
        inflow_shape trans a amt (lt_of_le_of_ne hla hfin)
      obtain ⟨b', hbeq, hbi, hbc', hbsh, hbst, hblr⟩ :=
        inflow_shape trans b amt
          (lt_of_le_of_ne hlb (fun hh => hfin (by rw [hidx, hh])))
      refine ⟨a', b', by rw [runOp, haeq], by rw [runOp, hbeq],
        ⟨by rw [hai, hbi, hidx], by rw [hac, hbc', hbc],
         by rw [hash, hbsh, hbs], by rw [hast, hbst, hsc],
         by rw [hast, hbst, hss]⟩,
        recGood_of_ledgersEq halr hai hga,
        recGood_of_ledgersEq hblr hbi hgb,
        by rw [hai]; exact hla, by rw [hbi]; exact hlb⟩
  | inflow_comment amt c =>
    by_cases hfin : a.index = trans.ndays
    · refine ⟨a, b, ?_, ?_, ⟨hidx, hbc, hbs, hsc, hss⟩, hga, hgb, hla, hlb⟩
      · rw [runOp, TransactionIterator.inflow_comment,
          TransactionIterator.inflow,
          if_pos (by simp [TransactionIterator.is_finished, hfin]),
          exceptBind_err]
      · rw [runOp, TransactionIterator.inflow_comment,
          TransactionIterator.inflow,
          if_pos (by simp [TransactionIterator.is_finished, hbidx, hfin]),
          exceptBind_err]
    · obtain ⟨a', haeq, hai, hac, hash, hast, halr⟩ :=
        inflow_comment_shape trans a amt c (lt_of_le_of_ne hla hfin)
      obtain ⟨b', hbeq, hbi, hbc', hbsh, hbst, hblr⟩ :=
        inflow_comment_shape trans b amt c
          (lt_of_le_of_ne hlb (fun hh => hfin (by rw [hidx, hh])))
      refine ⟨a', b', by rw [runOp, haeq], by rw [runOp, hbeq],
        ⟨by rw [hai, hbi, hidx], by rw [hac, hbc', hbc],
         by rw [hash, hbsh, hbs], by rw [hast, hbst, hsc],
         by rw [hast, hbst, hss]⟩,
        recGood_of_ledgersEq halr hai hga,
        recGood_of_ledgersEq hblr hbi hgb,
        by rw [hai]; exact hla, by rw [hbi]; exact hlb⟩
  | buy f iv fee =>
    by_cases hfin : a.index = trans.ndays
    · refine ⟨a, b, ?_, ?_, ⟨hidx, hbc, hbs, hsc, hss⟩, hga, hgb, hla, hlb⟩
      · rw [runOp, TransactionIterator.buy,
          if_pos (by simp [TransactionIterator.is_finished, hfin])]
      · rw [runOp, TransactionIterator.buy,
          if_pos (by simp [TransactionIterator.is_finished, hbidx, hfin])]
    · obtain ⟨a', haeq, hai, hac, hash, hast, halr⟩ :=
        buy_shape trans a f iv fee (lt_of_le_of_ne hla hfin)
      obtain ⟨b', hbeq, hbi, hbc', hbsh, hbst, hblr⟩ :=
        buy_shape trans b f iv fee
          (lt_of_le_of_ne hlb (fun hh => hfin (by rw [hidx, hh])))
      refine ⟨a', b', by rw [runOp, haeq], by rw [runOp, hbeq],
        ⟨by rw [hai, hbi, hidx], by rw [hac, hbc', hbc],
         by rw [hash, hbsh, hbs, hidx], by rw [hast, hbst, hsc],
         by rw [hast, hbst, hss]⟩,
        recGood_of_ledgersEq halr hai hga,
        recGood_of_ledgersEq hblr hbi hgb,
        by rw [hai]; exact hla, by rw [hbi]; exact hlb⟩
  | buy_comment f iv fee c =>
    by_cases hfin : a.index = trans.ndays
    · refine ⟨a, b, ?_, ?_, ⟨hidx, hbc, hbs, hsc, hss⟩, hga, hgb, hla, hlb⟩
      · rw [runOp, TransactionIterator.buy_comment, TransactionIterator.buy,
          if_pos (by simp [TransactionIterator.is_finished, hfin]),
          exceptBind_err]
      · rw [runOp, TransactionIterator.buy_comment, TransactionIterator.buy,
          if_pos (by simp [TransactionIterator.is_finished, hbidx, hfin]),
          exceptBind_err]
    · obtain ⟨a', haeq, hai, hac, hash, hast, halr⟩ :=
        buy_comment_shape trans a f iv fee c (lt_of_le_of_ne hla hfin)
      obtain ⟨b', hbeq, hbi, hbc', hbsh, hbst, hblr⟩ :=
        buy_comment_shape trans b f iv fee c
          (lt_of_le_of_ne hlb (fun hh => hfin (by rw [hidx, hh])))
      refine ⟨a', b', by rw [runOp, haeq], by rw [runOp, hbeq],
        ⟨by rw [hai, hbi, hidx], by rw [hac, hbc', hbc],
         by rw [hash, hbsh, hbs, hidx], by rw [hast, hbst, hsc],
         by rw [hast, hbst, hss]⟩,
        recGood_of_ledgersEq halr hai hga,
        recGood_of_ledgersEq hblr hbi hgb,
        by rw [hai]; exact hla, by rw [hbi]; exact hlb⟩
  | sell f sh fee =>
    by_cases hfin : a.index = trans.ndays
    · refine ⟨a, b, ?_, ?_, ⟨hidx, hbc, hbs, hsc, hss⟩, hga, hgb, hla, hlb⟩
      · rw [runOp, TransactionIterator.sell,
          if_pos (by simp [TransactionIterator.is_finished, hfin])]
      · rw [runOp, TransactionIterator.sell,
          if_pos (by simp [TransactionIterator.is_finished, hbidx, hfin])]
    · obtain ⟨a', haeq, hai, hac, hash, hast, halr⟩ :=
        sell_shape trans a f sh fee (lt_of_le_of_ne hla hfin)
      obtain ⟨b', hbeq, hbi, hbc', hbsh, hbst, hblr⟩ :=
        sell_shape trans b f sh fee
          (lt_of_le_of_ne hlb (fun hh => hfin (by rw [hidx, hh])))
      refine ⟨a', b', by rw [runOp, haeq], by rw [runOp, hbeq],
        ⟨by rw [hai, hbi, hidx], by rw [hac, hbc', hbc, hidx],
         by rw [hash, hbsh, hbs], by rw [hast, hbst, hsc],
         by rw [hast, hbst, hss]⟩,
        recGood_of_ledgersEq halr hai hga,
        recGood_of_ledgersEq hblr hbi hgb,
        by rw [hai]; exact hla, by rw [hbi]; exact hlb⟩
  | sell_comment f sh fee c =>
    by_cases hfin : a.index = trans.ndays
    · refine ⟨a, b, ?_, ?_, ⟨hidx, hbc, hbs, hsc, hss⟩, hga, hgb, hla, hlb⟩
      · rw [runOp, TransactionIterator.sell_comment,
          TransactionIterator.sell,
          if_pos (by simp [TransactionIterator.is_finished, hfin]),
          exceptBind_err]
      · rw [runOp, TransactionIterator.sell_comment,
          TransactionIterator.sell,
          if_pos (by simp [TransactionIterator.is_finished, hbidx, hfin]),
          exceptBind_err]
    · obtain ⟨a', haeq, hai, hac, hash, hast, halr⟩ :=
        sell_comment_shape trans a f sh fee c (lt_of_le_of_ne hla hfin)
      obtain ⟨b', hbeq, hbi, hbc', hbsh, hbst, hblr⟩ :=
        sell_comment_shape trans b f sh fee c
          (lt_of_le_of_ne hlb (fun hh => hfin (by rw [hidx, hh])))
      refine ⟨a', b', by rw [runOp, haeq], by rw [runOp, hbeq],
        ⟨by rw [hai, hbi, hidx], by rw [hac, hbc', hbc, hidx],
         by rw [hash, hbsh, hbs], by rw [hast, hbst, hsc],
         by rw [hast, hbst, hss]⟩,
        recGood_of_ledgersEq halr hai hga,
        recGood_of_ledgersEq hblr hbi hgb,
        by rw [hai]; exact hla, by rw [hbi]; exact hlb⟩
  | next_day =>
    obtain ⟨a', b', ba, bb, hfa, hfb, hsim, hga', hgb', hla', hlb'⟩ :=
      advance_lockstep trans 1 a b hs hga hgb hla hlb
        ⟨hidx, hbc, hbs, hsc, hss⟩
    refine ⟨a', b', ?_, ?_, hsim, hga', hgb', hla', hlb'⟩
    · rw [runOp, TransactionIterator.next_day, hfa, exceptMap_ok]
    · rw [runOp, TransactionIterator.next_day, hfb, exceptMap_ok]
  | next_weekday w =>
    have htoday : TransactionIterator.today trans b =
        TransactionIterator.today trans a := by
      rw [TransactionIterator.today, TransactionIterator.today,
        TransactionIterator.is_finished, TransactionIterator.is_finished,
        hbidx]
    obtain ⟨a', b', ba, bb, hfa, hfb, hsim, hga', hgb', hla', hlb'⟩ :=
      advance_lockstep trans
        (TransactionIterator.nextWeekdayN trans a.index
          (w.getD (TransactionIterator.weekdayOf
            (TransactionIterator.today trans a))))
        a b hs hga hgb hla hlb ⟨hidx, hbc, hbs, hsc, hss⟩
    refine ⟨a', b', ?_, ?_, hsim, hga', hgb', hla', hlb'⟩
    · rw [runOp, TransactionIterator.next_weekday]
      rw [hfa, exceptMap_ok]
    · rw [runOp, TransactionIterator.next_weekday]
      rw [htoday, hbidx, hfb, exceptMap_ok]
  | goto d =>
    obtain ⟨a', b', ba, bb, hfa, hfb, hsim, hga', hgb', hla', hlb'⟩ :=
      advance_lockstep trans
        (search_sorted (trans.date.drop (min a.index trans.date.length))
          d id none)
        a b hs hga hgb hla hlb ⟨hidx, hbc, hbs, hsc, hss⟩
    refine ⟨a', b', ?_, ?_, hsim, hga', hgb', hla', hlb'⟩
    · rw [runOp, TransactionIterator.goto]
      rw [hfa, exceptMap_ok]
    · rw [runOp, TransactionIterator.goto]
      rw [hbidx, hfb, exceptMap_ok]
  | next_month day =>
    have htoday : TransactionIterator.today trans b =
        TransactionIterator.today trans a := by
      rw [TransactionIterator.today, TransactionIterator.today,
        TransactionIterator.is_finished, TransactionIterator.is_finished,
        hbidx]
    obtain ⟨a', b', ba, bb, hfa, hfb, hsim, hga', hgb', hla', hlb'⟩ :=
      advance_lockstep trans
        (search_sorted ((trans.date.drop
            (min (a.index + 1) trans.date.length)).take
          (min (a.index + 61) trans.date.length -
            min (a.index + 1) trans.date.length))
          (nmT (TransactionIterator.today trans a) day) id none + 1)
        a b hs hga hgb hla hlb ⟨hidx, hbc, hbs, hsc, hss⟩
    refine ⟨a', b', ?_, ?_, hsim, hga', hgb', hla', hlb'⟩
    · rw [runOp, TransactionIterator.next_month]
      rw [hfa, exceptMap_ok]
    · rw [runOp, TransactionIterator.next_month]
      rw [htoday, hbidx, hfb, exceptMap_ok]

/-- Lockstep over whole operation sequences. -/
theorem runOps_lockstep (nmT : ℤ → Option ℕ → ℤ) (trans : Transaction)
    (hs : trans.date.Pairwise (· ≤ ·)) :
    ∀ (ops : List Op) (a b : TransactionIterator),
    RecGood trans a → RecGood trans b → a.index ≤ trans.ndays →
    b.index ≤ trans.ndays → SimEq a b →
    ∃ a' b', runOps nmT trans a ops = Except.ok a' ∧
      runOps nmT trans b ops = Except.ok b' ∧ SimEq a' b' := by
  intro ops
  induction ops with
  | nil =>
    intro a b _ _ _ _ hab
    exact ⟨a, b, rfl, rfl, hab⟩
  | cons op rest ih =>
    intro a b hga hgb hla hlb hab
    obtain ⟨a1, b1, he1, he2, hsim, hg1, hg2, hl1, hl2⟩ :=
      runOp_lockstep nmT trans hs op a b hga hgb hla hlb hab
    obtain ⟨a', b', hr1, hr2, hsim'⟩ := ih a1 b1 hg1 hg2 hl1 hl2 hsim
    refine ⟨a', b', ?_, ?_, hsim'⟩
    · rw [runOps, List.foldlM_cons, he1, exceptBind_ok]
      exact hr1
    · rw [runOps, List.foldlM_cons, he2, exceptBind_ok]
      exact hr2

/-- C1: for every transaction with a non-decreasing calendar and every
fixed sequence of public operations, the final simulation state — the
day cursor, the pending and committed cash and shares, and hence
`asset()` — is identical across all four combinations of the `save_log`
and `save_record` flags: both runs perform the same arithmetic, so the
results are bit-identical, and neither flagged run ever panics.  The
statement is uniform in `nmT`, the model of `next_month`'s `chrono`
date arithmetic. -/
theorem c1_flag_equivalence (nmT : ℤ → Option ℕ → ℤ) (trans : Transaction)
    (ops : List Op) (log1 rec1 log2 rec2 : Bool)
    (hs : trans.date.Pairwise (· ≤ ·)) :
    ∃ st1 st2,
      runOps nmT trans (TransactionIterator.new trans log1 rec1) ops =
        Except.ok st1 ∧
      runOps nmT trans (TransactionIterator.new trans log2 rec2) ops =
        Except.ok st2 ∧
      simProj st1 = simProj st2 ∧
      TransactionIterator.asset trans st1 =
        TransactionIterator.asset trans st2 ∧
      TransactionIterator.cash st1 = TransactionIterator.cash st2 ∧
      (∀ i, TransactionIterator.share st1 i =
        TransactionIterator.share st2 i) ∧
      st1.index = st2.index := by
  have hgnew : ∀ l r : Bool,
      RecGood trans (TransactionIterator.new trans l r) := by
    intro l r rec h hlt
    rw [TransactionIterator.new] at h
    dsimp only at h
    rcases r with _ | _
    · rw [if_neg (by simp)] at h
      cases h
    · rw [if_pos rfl] at h
      simp only [Option.some.injEq] at h
      subst h
      constructor
      · intro s hsm
        simp [ConciseRecord.new] at hsm
      · intro fr hf s hsm
        simp only [List.mem_map] at hf
        obtain ⟨nc, _, hfr⟩ := hf
        rw [← hfr] at hsm
        simp [DetailedRecord.new] at hsm
  have hle0 : ∀ l r : Bool,
      (TransactionIterator.new trans l r).index ≤ trans.ndays :=
    fun _ _ => Nat.zero_le _
  obtain ⟨st1, st2, h1, h2, hsim⟩ := runOps_lockstep nmT trans hs ops
    (TransactionIterator.new trans log1 rec1)
    (TransactionIterator.new trans log2 rec2)
    (hgnew log1 rec1) (hgnew log2 rec2) (hle0 log1 rec1) (hle0 log2 rec2)
    ⟨rfl, rfl, rfl, rfl, rfl⟩
  obtain ⟨hidx, hbc, hbs, hsc, hss⟩ := hsim
  refine ⟨st1, st2, h1, h2, ?_, ?_, ?_, ?_, hidx⟩
  · rw [simProj, simProj, hidx, hbc, hbs, hsc, hss]
  · rw [TransactionIterator.asset, TransactionIterator.asset, hidx, hsc,
      hss]
  · rw [TransactionIterator.cash, TransactionIterator.cash, hsc]
  · intro i
    rw [TransactionIterator.share, TransactionIterator.share, hss]

/-- Witness for C1: the scenario run on the three-day calendar gives the
same final asset with all features on as with all features off. -/
theorem c1_flag_equivalence_witness :
    ∃ st1 st2,
      runOps nmT0 calT3 (TransactionIterator.new calT3 true true)
        [Op.inflow 100, Op.buy 0 100 0, Op.next_day] = Except.ok st1 ∧
      runOps nmT0 calT3 (TransactionIterator.new calT3 false false)
        [Op.inflow 100, Op.buy 0 100 0, Op.next_day] = Except.ok st2 ∧
      simProj st1 = simProj st2 ∧
      TransactionIterator.asset calT3 st1 =
        TransactionIterator.asset calT3 st2 ∧
      TransactionIterator.cash st1 = TransactionIterator.cash st2 ∧
      (∀ i, TransactionIterator.share st1 i =
        TransactionIterator.share st2 i) ∧
      st1.index = st2.index :=
  c1_flag_equivalence nmT0 calT3 [Op.inflow 100, Op.buy 0 100 0,
    Op.next_day] true true false false (by decide)

end Eatmud
